import Mathlib

/-!
Verification development for the parametric surface visualizer (`src/main.js`).

The embedding models JavaScript numbers as elements of a linear ordered field
`α` together with a finiteness flag (`JsNum`): every value the program ever
compares or stores is either a finite number or a non-finite one (NaN or an
infinity, which the source only ever inspects through `isFinite`).  A thrown
JavaScript exception is an `Except.error` carrying the message string.  The
host engine facilities that are not part of the repository (the `Function`
constructor and its evaluation of rewritten expression text) enter as explicit
`engine` parameters, and for the generated Fourier expressions as a small
evaluator modelled from the spec.  All definitions follow the source
line by line; machine floats are idealised as exact field arithmetic.
-/

/-- A JavaScript number: a field value plus whether `isFinite` holds of it.
When `finite = false` the `val` field is irrelevant (NaN or ±Infinity). -/
structure JsNum (α : Type) where
  val : α
  finite : Bool
deriving DecidableEq

/-- A compiled surface function `(u, v) => number`: it can throw (modelled as
`Except.error` with the message) or return a possibly non-finite number. -/
def SurfFn (α : Type) : Type := α → α → Except String (JsNum α)

/-! ### Expression preprocessing (`compileExpression`, lines 161-209)

The source rewrites the raw text with regular expressions: `^` becomes `**`,
the whole word `pi` (case-insensitive) becomes `Math.PI`, and each whitelisted
function name becomes `Math.<name>`.  We implement the JavaScript semantics of
`String.replace` with a `\b`-delimited global pattern directly on character
lists: a match needs a non-word character (or the string edge) on both sides,
and scanning resumes after the matched occurrence of the source string. -/

/-- JavaScript `String.prototype.trim`: strip leading and trailing
whitespace. -/
def jsTrim (s : String) : String :=
  String.mk
    (((s.data.dropWhile fun c => c.isWhitespace).reverse.dropWhile
        fun c => c.isWhitespace).reverse)

/-- JavaScript word characters, the `\w` class used by `\b` boundaries. -/
def isWordChar (c : Char) : Bool := c.isAlpha || c.isDigit || c == '_'

/-- Characters that can extend an identifier-like token for analysis purposes:
word characters plus `.` (member access) and `$` (identifier character in
JavaScript that is nevertheless not in the `\w` class). -/
def isTokChar (c : Char) : Bool := isWordChar c || c == '.' || c == '$'

/-- Uppercase an ASCII lowercase letter (used for case-insensitive matching of
the concrete lowercase pattern `pi`). -/
def upperChar (c : Char) : Char := if c.isLower then Char.ofNat (c.toNat - 32) else c

/-- Does source character `a` match pattern character `b` (with `b` taken from
a lowercase pattern), optionally case-insensitively? -/
def charMatch (ci : Bool) (a b : Char) : Bool := a == b || (ci && a == upperChar b)

/-- Does the pattern `tgt` match at the head of `s`? -/
def matchesAt (tgt : List Char) (ci : Bool) (s : List Char) : Bool :=
  decide (tgt.length ≤ s.length) &&
    ((s.take tgt.length).zip tgt).all fun p => charMatch ci p.1 p.2

/-- The `\b` condition after a match at the head of `s`: the character that
follows the matched text, if any, is not a word character. -/
def boundaryAfter (tgt : List Char) (s : List Char) : Bool :=
  match (s.drop tgt.length).head? with
  | none => true
  | some c => !isWordChar c

/-- `s.replace(/\btgt\b/g, rep)` (with optional `i` flag), scanning with the
flag `prev` recording whether the previous source character was a word
character (so that the leading `\b` can be decided locally). -/
def replaceWordAll (tgt rep : List Char) (ci : Bool) : Bool → List Char → List Char
  | _, [] => []
  | prev, c :: cs =>
    if !prev && matchesAt tgt ci (c :: cs) && boundaryAfter tgt (c :: cs) then
      rep ++ replaceWordAll tgt rep ci true (cs.drop (tgt.length - 1))
    else
      c :: replaceWordAll tgt rep ci (isWordChar c) cs
termination_by _ s => s.length
decreasing_by
  · simp only [List.length_cons, List.length_drop]
    omega
  · simp only [List.length_cons]
    omega

/-- The whitelisted math function names (lines 174-194). -/
def mathFuncs : List String :=
  ["sin", "cos", "tan", "asin", "acos", "atan", "sinh", "cosh", "tanh",
   "exp", "log", "sqrt", "abs", "floor", "ceil", "round", "pow", "min", "max"]

/-- `expr.replace(/\^/g, "**")` (line 169). -/
def replaceCaret (s : List Char) : List Char :=
  s.flatMap fun c => if c == '^' then ['*', '*'] else [c]

/-- The full preprocessing pipeline applied to the (already trimmed) raw
expression text: caret, then `pi`, then each whitelisted function name in
list order (lines 169-199). -/
def rewriteExpression (s : String) : String :=
  let cs := replaceCaret s.data
  let cs := replaceWordAll "pi".data "Math.PI".data true false cs
  let cs := mathFuncs.foldl
    (fun acc fn => replaceWordAll fn.data ("Math." ++ fn).data false false acc) cs
  String.mk cs

/-- Errors of the expression compiler, tagged by the condition that raised
them; the attached string is the full thrown message. -/
inductive CompileErr where
  | emptyExpression : CompileErr
  | compileError (msg : String) : CompileErr
deriving DecidableEq

/-- `compileExpression` (lines 161-209).  The host `Function` constructor and
the invocation of the resulting callable are not part of the repository; they
appear as the `engine` argument, which receives the rewritten text and either
fails (a parse error) or yields the callable.  The mandatory smoke test
invokes the callable once at `u = 0`, `v = 0`; any failure during construction
or the smoke test is wrapped as a compile error with the underlying message,
and then no function is returned. -/
def compileExpression {α : Type} [Zero α] (exprRaw : String)
    (engine : String → Except String (SurfFn α)) : Except CompileErr (SurfFn α) :=
  if jsTrim exprRaw = "" then .error .emptyExpression
  else
    match engine (rewriteExpression (jsTrim exprRaw)) with
    | .error e => .error (.compileError ("Could not parse expression: " ++ e))
    | .ok f =>
      match f 0 0 with
      | .error e => .error (.compileError ("Could not parse expression: " ++ e))
      | .ok _ => .ok f

/-- Errors of the bound evaluator (`evalNumericExpression`, lines 212-257),
tagged by the condition that raised them.  In the source all three are thrown
`Error`s whose message text `boundErrMsg` reproduces exactly; in particular
the non-finite case is detected by the explicit `isFinite` check on the
evaluated value and is therefore a distinct error condition from a
parse/evaluation exception, even though its thrown message passes through the
same `catch` wrapper. -/
inductive BoundErr where
  | emptyBound : BoundErr
  | nonFiniteBound (src : String) : BoundErr
  | compileError (src msg : String) : BoundErr
deriving DecidableEq

/-- The exact message text thrown by the source for each bound error. -/
def boundErrMsg : BoundErr → String
  | .emptyBound => "Parameter bound expression is empty."
  | .nonFiniteBound src =>
      "Could not parse bound \"" ++ src ++ "\": Expression \"" ++ src ++
        "\" evaluated to non-finite value."
  | .compileError src m => "Could not parse bound \"" ++ src ++ "\": " ++ m

/-- `evalNumericExpression` (lines 212-257): empty check, the same rewriting
as the expression compiler, evaluation by the host engine (the `engine`
argument, not repository code), then the `isFinite` check on the result. -/
def evalNumericExpression {α : Type} (exprRaw : String)
    (engine : String → Except String (JsNum α)) : Except BoundErr (JsNum α) :=
  if jsTrim exprRaw = "" then .error .emptyBound
  else
    match engine (rewriteExpression (jsTrim exprRaw)) with
    | .error e => .error (.compileError exprRaw e)
    | .ok v => if v.finite then .ok v else .error (.nonFiniteBound exprRaw)

/-! ### Grid validation and tessellation (`buildSurface`, lines 269-420) -/

/-- The validated grid parameters that survive the checks of lines 287-316. -/
structure GridSpec (α : Type) where
  uMin : α
  uMax : α
  vMin : α
  vMax : α
  uSteps : ℕ
  vSteps : ℕ
deriving DecidableEq

/-- Build-request errors, following the spec taxonomy (§7) over the thrown
messages of the source. -/
inductive BuildError (α : Type) where
  | invalidGridSpec (reason : String)
  | exprError (e : CompileErr)
  | evaluationError (u v : α) (msg : String)
  | nonFiniteVertex (u v : α)
deriving DecidableEq

/-- The step-count checks of lines 300-312.  `parseInt` of the raw field is
modelled as `Option ℤ` (`none` when `parseInt` returned NaN, which fails the
`Number.isInteger` test). -/
def validateSteps (uStepsI vStepsI : Option ℤ) : Except String (ℕ × ℕ) :=
  match uStepsI with
  | none => .error "u steps must be an integer ≥ 4."
  | some u =>
    if u < 4 then .error "u steps must be an integer ≥ 4."
    else
      match vStepsI with
      | none => .error "v steps must be an integer ≥ 4."
      | some v =>
        if v < 4 then .error "v steps must be an integer ≥ 4."
        else if 50000 < u * v then
          .error "Grid too dense (uSteps * vSteps > 50k). Reduce resolution."
        else .ok (u.toNat, v.toNat)

/-- The `try` block of lines 287-316: evaluate the four bound expressions,
re-check finiteness, check bound ordering, then the step counts; the first
thrown message aborts the whole validation. -/
def validateStage {α : Type} [LinearOrderedField α]
    (uMinS uMaxS vMinS vMaxS : String)
    (bndEngine : String → Except String (JsNum α))
    (uStepsI vStepsI : Option ℤ) : Except String (GridSpec α) :=
  match evalNumericExpression uMinS bndEngine with
  | .error e => .error (boundErrMsg e)
  | .ok uMinN =>
    match evalNumericExpression uMaxS bndEngine with
    | .error e => .error (boundErrMsg e)
    | .ok uMaxN =>
      match evalNumericExpression vMinS bndEngine with
      | .error e => .error (boundErrMsg e)
      | .ok vMinN =>
        match evalNumericExpression vMaxS bndEngine with
        | .error e => .error (boundErrMsg e)
        | .ok vMaxN =>
          if ¬(uMinN.finite ∧ uMaxN.finite ∧ vMinN.finite ∧ vMaxN.finite) then
            .error "Parameter bounds must evaluate to finite numbers."
          else if uMaxN.val ≤ uMinN.val ∨ vMaxN.val ≤ vMinN.val then
            .error "Max bounds must be greater than min bounds."
          else
            match validateSteps uStepsI vStepsI with
            | .error e => .error e
            | .ok steps =>
              .ok ⟨uMinN.val, uMaxN.val, vMinN.val, vMaxN.val, steps.1, steps.2⟩

/-- The grid sample abscissa of lines 334/336:
`uMin + ((uMax - uMin) * i) / uSteps` (division by the step count, not the
sample count). -/
def surfU {α : Type} [LinearOrderedField α] (uMin uMax : α) (uSteps : ℕ) (i : ℕ) : α :=
  uMin + (uMax - uMin) * (i : α) / (uSteps : α)

/-- One grid sample (lines 337-357): evaluate the three coordinate functions
in order, turning the first thrown exception into an evaluation error at
`(u, v)`, then check all three results for finiteness. -/
def evalVertex {α : Type} (fx fy fz : SurfFn α) (u v : α) :
    Except (BuildError α) (α × α × α) :=
  match fx u v with
  | .error e => .error (.evaluationError u v e)
  | .ok x =>
    match fy u v with
    | .error e => .error (.evaluationError u v e)
    | .ok y =>
      match fz u v with
      | .error e => .error (.evaluationError u v e)
      | .ok z =>
        if x.finite && y.finite && z.finite then .ok (x.val, y.val, z.val)
        else .error (.nonFiniteVertex u v)

/-- Fail-fast effectful map: the first error in list order aborts the whole
traversal, so no partial list of results ever escapes. -/
def mapE {γ β ε : Type} (f : γ → Except ε β) : List γ → Except ε (List β)
  | [] => .ok []
  | a :: l =>
    match f a with
    | .error e => .error e
    | .ok b =>
      match mapE f l with
      | .error e => .error e
      | .ok bs => .ok (b :: bs)

/-- The traversal order of the nested vertex loops of lines 333-363: `i` from
`0` to `uSteps`, inner `j` from `0` to `vSteps`. -/
def gridPairs (uSteps vSteps : ℕ) : List (ℕ × ℕ) :=
  (List.range (uSteps + 1)).flatMap fun i =>
    (List.range (vSteps + 1)).map fun j => (i, j)

/-- The vertex-position loop of lines 330-363, producing the flat row-major
position list (vertex `(i, j)` at flat index `i * (vSteps + 1) + j`), or the
error of the first bad sample. -/
def sampleGrid {α : Type} [LinearOrderedField α] (fx fy fz : SurfFn α)
    (uMin uMax vMin vMax : α) (uSteps vSteps : ℕ) :
    Except (BuildError α) (List (α × α × α)) :=
  mapE
    (fun ij =>
      evalVertex fx fy fz (surfU uMin uMax uSteps ij.1) (surfU vMin vMax vSteps ij.2))
    (gridPairs uSteps vSteps)

/-- The six indices pushed for cell `(i, j)` (lines 371-377): triangles
`(a, b, d)` then `(b, c, d)`. -/
def cellIndices (vCount i j : ℕ) : List ℕ :=
  [i * vCount + j, (i + 1) * vCount + j, i * vCount + (j + 1),
   (i + 1) * vCount + j, (i + 1) * vCount + (j + 1), i * vCount + (j + 1)]

/-- The index loop of lines 368-379. -/
def meshIndices (uSteps vSteps : ℕ) : List ℕ :=
  (List.range uSteps).flatMap fun i =>
    (List.range vSteps).flatMap fun j => cellIndices (vSteps + 1) i j

/-- A constructed mesh: flat vertex positions plus triangle indices. -/
structure Mesh (α : Type) where
  positions : List (α × α × α)
  indices : List ℕ
deriving DecidableEq

/-- The observable outcome of one `buildSurface` request: the displayed-mesh
state afterwards, the meshes released (disposed) during the request, and the
result. -/
structure BuildOutcome (α : Type) where
  state : Option (Mesh α)
  released : List (Mesh α)
  result : Except (BuildError α) (Mesh α)

/-- Lift a pure total coordinate function to a `SurfFn` that never throws and
always returns a finite value. -/
def liftFn {α : Type} (f : α → α → α) : SurfFn α := fun u v => .ok ⟨f u v, true⟩

/-- `buildSurface` (lines 269-420) as a state transition on the displayed
mesh: validation, compilation of the three expressions in order, the sampling
loop, then — only on full success — release of the previous mesh and
installation of the new one (lines 394-400).  Every failure leaves the state
untouched and releases nothing. -/
def buildSurface {α : Type} [LinearOrderedField α]
    (uMinS uMaxS vMinS vMaxS : String)
    (bndEngine : String → Except String (JsNum α))
    (uStepsI vStepsI : Option ℤ)
    (xExpr yExpr zExpr : String)
    (fnEngine : String → Except String (SurfFn α))
    (currentMesh : Option (Mesh α)) : BuildOutcome α :=
  match validateStage uMinS uMaxS vMinS vMaxS bndEngine uStepsI vStepsI with
  | .error r => ⟨currentMesh, [], .error (.invalidGridSpec r)⟩
  | .ok g =>
    match compileExpression xExpr fnEngine with
    | .error e => ⟨currentMesh, [], .error (.exprError e)⟩
    | .ok fx =>
      match compileExpression yExpr fnEngine with
      | .error e => ⟨currentMesh, [], .error (.exprError e)⟩
      | .ok fy =>
        match compileExpression zExpr fnEngine with
        | .error e => ⟨currentMesh, [], .error (.exprError e)⟩
        | .ok fz =>
          match sampleGrid fx fy fz g.uMin g.uMax g.vMin g.vMax g.uSteps g.vSteps with
          | .error e => ⟨currentMesh, [], .error e⟩
          | .ok ps =>
            let m : Mesh α := ⟨ps, meshIndices g.uSteps g.vSteps⟩
            ⟨some m, currentMesh.toList, .ok m⟩

/-- A tessellation request violating the grid preconditions the spec lists:
a bound that evaluates to a non-finite value, `uMax ≤ uMin`, `vMax ≤ vMin`,
a step count below 4, or a grid denser than 50000 cells. -/
def gridSpecViolated {α : Type} (uMinS uMaxS vMinS vMaxS : String)
    (bndEngine : String → Except String (JsNum α))
    (uStepsI vStepsI : Option ℤ) [LinearOrderedField α] : Prop :=
  (evalNumericExpression uMinS bndEngine = .error (.nonFiniteBound uMinS) ∨
   evalNumericExpression uMaxS bndEngine = .error (.nonFiniteBound uMaxS) ∨
   evalNumericExpression vMinS bndEngine = .error (.nonFiniteBound vMinS) ∨
   evalNumericExpression vMaxS bndEngine = .error (.nonFiniteBound vMaxS)) ∨
  (∃ mn mx, evalNumericExpression uMinS bndEngine = .ok mn ∧
    evalNumericExpression uMaxS bndEngine = .ok mx ∧ mx.val ≤ mn.val) ∨
  (∃ mn mx, evalNumericExpression vMinS bndEngine = .ok mn ∧
    evalNumericExpression vMaxS bndEngine = .ok mx ∧ mx.val ≤ mn.val) ∨
  (∃ n, uStepsI = some n ∧ n < 4) ∨
  (∃ n, vStepsI = some n ∧ n < 4) ∨
  (∃ nu nv, uStepsI = some nu ∧ vStepsI = some nv ∧ 50000 < nu * nv)

/-! ### The Fourier fitter (lines 622-682) -/

/-- Per-axis Fourier coefficients; the `a`/`b` arrays of the source are
modelled as total maps from the index. -/
structure FourierCoeffs (α : Type) where
  a0 : α
  a : ℕ → α
  b : ℕ → α
  K : ℕ

/-- `computeFourierCoeffs` (lines 622-644).  The trigonometric functions and
π of the host math library are passed as the parameters `cosF`, `sinF`,
`piV`; the loop accumulates `sum0` and the `a`/`b` entries for `k = 1..maxK`
at `t = (2π n) / N`, then scales everything by `2 / N`. -/
def computeFourierCoeffs {α : Type} [LinearOrderedField α] (cosF sinF : α → α)
    (piV : α) (vals : List α) (maxK : ℕ) : FourierCoeffs α :=
  let N := vals.length
  let step := fun (acc : α × (ℕ → α) × (ℕ → α)) (n : ℕ) =>
    let t := 2 * piV * (n : α) / (N : α)
    let v := vals.getD n 0
    (acc.1 + v,
     fun k => if 1 ≤ k ∧ k ≤ maxK then acc.2.1 k + v * cosF ((k : α) * t) else acc.2.1 k,
     fun k => if 1 ≤ k ∧ k ≤ maxK then acc.2.2 k + v * sinF ((k : α) * t) else acc.2.2 k)
  let r := (List.range N).foldl step (0, fun _ => 0, fun _ => 0)
  { a0 := 2 / (N : α) * r.1,
    a := fun k => if 1 ≤ k ∧ k ≤ maxK then 2 / (N : α) * r.2.1 k else r.2.1 k,
    b := fun k => if 1 ≤ k ∧ k ≤ maxK then 2 / (N : α) * r.2.2 k else r.2.2 k,
    K := maxK }

/-- `fourierSeriesEval` (lines 675-682): `a0/2` plus the `k = 1..K` loop. -/
def fourierSeriesEval {α : Type} [LinearOrderedField α] (cosF sinF : α → α)
    (coeffs : FourierCoeffs α) (t : α) : α :=
  (List.range' 1 coeffs.K).foldl
    (fun v k => v + coeffs.a k * cosF ((k : α) * t) + coeffs.b k * sinF ((k : α) * t))
    (coeffs.a0 / 2)

/-! ### Rendering the fitted series to text (`buildFourierEquation`,
lines 646-673) and its recompilation semantics -/

/-- Decimal rounding to four places with ties toward the larger value, the
rounding `Number.prototype.toFixed(4)` performs on the exact value. -/
def round4 (x : ℚ) : ℚ := (round (x * 10000) : ℤ) / 10000

/-- Decimal digits of a natural number, most significant first. -/
def natDigits (n : ℕ) : List Char :=
  if _h : n < 10 then [Char.ofNat (48 + n)]
  else natDigits (n / 10) ++ [Char.ofNat (48 + n % 10)]
decreasing_by
  exact Nat.div_lt_self (by omega) (by omega)

/-- The fractional part of `toFixed(4)`, zero-padded to four digits. -/
def pad4 (m : ℕ) : List Char :=
  List.replicate (4 - (natDigits m).length) '0' ++ natDigits m

/-- `x.toFixed(4)` for a non-negative value `x`. -/
def toFixed4 (x : ℚ) : String :=
  let n := (round (x * 10000) : ℤ).toNat
  String.mk (natDigits (n / 10000)) ++ "." ++ String.mk (pad4 (n % 10000))

/-- Decimal rendering of a natural number (the template interpolation of the
harmonic index `k` into `cos(k*param)` / `sin(k*param)`). -/
def natToString (n : ℕ) : String := String.mk (natDigits n)

/-- The `addTerm` closure of lines 652-663, acting on the accumulator
`(expr, first)`: a term below the `1e-4` threshold is skipped; otherwise the
magnitude is rendered with `toFixed(4)`, the sign becomes a leading `-` for
the first retained term and an infix ` + ` / ` - ` afterwards, and a nonempty
base string is attached with `*`. -/
def addFourierTerm (acc : String × Bool) (coeff : ℚ) (baseStr : String) : String × Bool :=
  if |coeff| < 1 / 10000 then acc
  else
    let cStr := toFixed4 |coeff|
    let tl := cStr ++ (if baseStr = "" then "" else "*" ++ baseStr)
    if acc.2 then (acc.1 ++ (if coeff < 0 then "-" else "") ++ tl, false)
    else (acc.1 ++ (if coeff < 0 then " - " else " + ") ++ tl, false)

/-- `buildFourierEquation` (lines 646-673): the constant term `a0/2` with no
trigonometric factor, then for `k = 1..K` the cosine and sine terms; if every
term was below threshold the literal `"0"` results. -/
def buildFourierEquation (coeffs : FourierCoeffs ℚ) (paramName : String) : String :=
  let acc0 := addFourierTerm ("", true) (coeffs.a0 / 2) ""
  let acc := (List.range' 1 coeffs.K).foldl
    (fun acc k =>
      addFourierTerm
        (addFourierTerm acc (coeffs.a k)
          ("cos(" ++ natToString k ++ "*" ++ paramName ++ ")"))
        (coeffs.b k)
        ("sin(" ++ natToString k ++ "*" ++ paramName ++ ")"))
    acc0
  if acc.2 then "0" else acc.1

/-- The shape of one rendered term of a generated Fourier expression. -/
inductive FBase where
  | const : FBase
  | cosk (k : ℕ) : FBase
  | sink (k : ℕ) : FBase
deriving DecidableEq

/-- One rendered term: its sign, its (rounded, non-negative) magnitude and
its trigonometric base. -/
structure FTerm where
  neg : Bool
  mag : ℚ
  base : FBase
deriving DecidableEq

/-- The base string the source interpolates for each term shape. -/
def baseString (b : FBase) (paramName : String) : String :=
  match b with
  | .const => ""
  | .cosk k => "cos(" ++ natToString k ++ "*" ++ paramName ++ ")"
  | .sink k => "sin(" ++ natToString k ++ "*" ++ paramName ++ ")"

/-- The unsigned text of one rendered term. -/
def termTail (t : FTerm) (paramName : String) : String :=
  toFixed4 t.mag ++
    (if baseString t.base paramName = "" then "" else "*" ++ baseString t.base paramName)

/-- The text contributed by every retained term after the first. -/
def renderTermsTail (ts : List FTerm) (paramName : String) : String :=
  match ts with
  | [] => ""
  | t :: rest =>
      (if t.neg then " - " else " + ") ++ termTail t paramName ++
        renderTermsTail rest paramName

/-- The full rendered expression for a list of retained terms (the `"0"`
literal when the list is empty). -/
def renderTerms (ts : List FTerm) (paramName : String) : String :=
  match ts with
  | [] => "0"
  | t :: rest =>
      (if t.neg then "-" else "") ++ termTail t paramName ++ renderTermsTail rest paramName

/-- The term `addTerm` retains for a coefficient, if any. -/
def mkFTerm (coeff : ℚ) (b : FBase) : Option FTerm :=
  if |coeff| < 1 / 10000 then none else some ⟨coeff < 0, round4 |coeff|, b⟩

/-- The coefficient/base pairs fed to `addTerm`, in source order. -/
def termInputs (coeffs : FourierCoeffs ℚ) : List (ℚ × FBase) :=
  (coeffs.a0 / 2, FBase.const) ::
    (List.range' 1 coeffs.K).flatMap fun k =>
      [(coeffs.a k, FBase.cosk k), (coeffs.b k, FBase.sink k)]

/-- The list of terms the builder retains. -/
def fourierTerms (coeffs : FourierCoeffs ℚ) : List FTerm :=
  (termInputs coeffs).filterMap fun p => mkFTerm p.1 p.2

/-- Consume a maximal run of decimal digits, accumulating their value. -/
def parseDigits (acc : ℕ) : List Char → ℕ × List Char
  | [] => (acc, [])
  | c :: cs => if c.isDigit then parseDigits (acc * 10 + (c.toNat - 48)) cs else (acc, c :: cs)

/-- Parse a fixed-point literal `digits.digits` and return its exact rational
value and the remaining input. -/
def parseFixed (s : List Char) : Option (ℚ × List Char) :=
  match s.head? with
  | none => none
  | some c =>
    if c.isDigit then
      let ip := (parseDigits 0 s).1
      let r1 := (parseDigits 0 s).2
      if r1.head? = some '.' then
        let r2 := r1.tail
        match r2.head? with
        | none => none
        | some d =>
          if d.isDigit then
            let fp := (parseDigits 0 r2).1
            let r3 := (parseDigits 0 r2).2
            some ((ip : ℚ) + (fp : ℚ) / 10 ^ (r2.length - r3.length), r3)
          else none
      else none
    else none

/-- Consume an exact literal prefix. -/
def parseLit (lit : List Char) (s : List Char) : Option (List Char) :=
  if s.take lit.length = lit then some (s.drop lit.length) else none

/-- Parse `k*param)` after a `cos(` / `sin(` opener. -/
def parseTrigArg (paramName : String) (s : List Char) : Option (ℕ × List Char) :=
  match s.head? with
  | none => none
  | some c =>
    if c.isDigit then
      match parseLit ('*' :: paramName.data ++ [')']) (parseDigits 0 s).2 with
      | some r2 => some ((parseDigits 0 s).1, r2)
      | none => none
    else none

/-- Parse the optional trigonometric factor of a term. -/
def parseBase (paramName : String) (s : List Char) : Option (FBase × List Char) :=
  match parseLit "*cos(".data s with
  | some r =>
    match parseTrigArg paramName r with
    | some (k, r2) => some (.cosk k, r2)
    | none => none
  | none =>
    match parseLit "*sin(".data s with
    | some r =>
      match parseTrigArg paramName r with
      | some (k, r2) => some (.sink k, r2)
      | none => none
    | none => some (.const, s)

/-- Parse an infix ` + ` / ` - ` separator, returning the sign it denotes. -/
def parseSep (s : List Char) : Option (Bool × List Char) :=
  match parseLit " + ".data s with
  | some r => some (false, r)
  | none =>
    match parseLit " - ".data s with
    | some r => some (true, r)
    | none => none

/-- Parse the remaining ` ± term` groups (fuelled by the input length). -/
def parseTermsTail (paramName : String) : ℕ → List Char → Option (List FTerm)
  | _, [] => some []
  | 0, _ :: _ => none
  | fuel + 1, c :: s =>
    match parseSep (c :: s) with
    | none => none
    | some (neg, r) =>
      match parseFixed r with
      | none => none
      | some (mag, r1) =>
        match parseBase paramName r1 with
        | none => none
        | some (b, r2) =>
          match parseTermsTail paramName fuel r2 with
          | none => none
          | some ts => some (⟨neg, mag, b⟩ :: ts)

/-- Strip the leading unary minus of the first rendered term, if present. -/
def parseFirstSign (cs : List Char) : Bool × List Char :=
  if cs.head? = some '-' then (true, cs.tail) else (false, cs)

/-- Parse a whole generated Fourier expression into its term list. -/
def parseFourierExpr (paramName : String) (s : String) : Option (List FTerm) :=
  if s = "0" then some [] else
    match parseFirstSign s.data with
    | (neg, r0) =>
      match parseFixed r0 with
      | none => none
      | some (mag, r1) =>
        match parseBase paramName r1 with
        | none => none
        | some (b, r2) =>
          match parseTermsTail paramName r2.length r2 with
          | none => none
          | some ts => some (⟨neg, mag, b⟩ :: ts)

/-- Value of a term base at parameter value `t` (with the math library's
cosine and sine passed as `cosF`, `sinF`). -/
def baseVal (cosF sinF : ℝ → ℝ) (b : FBase) (t : ℝ) : ℝ :=
  match b with
  | .const => 1
  | .cosk k => cosF ((k : ℝ) * t)
  | .sink k => sinF ((k : ℝ) * t)

/-- Value of a parsed term list at `t`. -/
def evalTerms (cosF sinF : ℝ → ℝ) (ts : List FTerm) (t : ℝ) : ℝ :=
  (ts.map fun tm => (if tm.neg then -1 else 1) * (tm.mag : ℝ) * baseVal cosF sinF tm.base t).sum

/-- Modelled from the spec: the host JavaScript engine that recompiles and
evaluates a generated Fourier expression is not part of the repository
(`new Function` plus its arithmetic); per §4.1 the rewritten `cos`/`sin`
resolve to the math library and `+ - *` are ordinary arithmetic, so the value
of the compiled function at `t` is the signed sum of its parsed terms. -/
def jsEvalFourier (cosF sinF : ℝ → ℝ) (paramName : String) (s : String) (t : ℝ) :
    Option ℝ :=
  (parseFourierExpr paramName s).map fun ts => evalTerms cosF sinF ts t

/-- Coefficient sets over `ℚ` viewed over `ℝ`. -/
def ratCoeffs (c : FourierCoeffs ℚ) : FourierCoeffs ℝ :=
  ⟨(c.a0 : ℝ), fun k => (c.a k : ℝ), fun k => (c.b k : ℝ), c.K⟩

/-- A coefficient set of order 60 whose every term lies just below the
omission threshold: each of the sixty cosine coefficients is `0.00009`. -/
def cexCoeffs : FourierCoeffs ℚ :=
  ⟨0, fun k => if 1 ≤ k ∧ k ≤ 60 then 9 / 100000 else 0, fun _ => 0, 60⟩

/-! ### Identifier-token analysis of rewritten expression text (§4.1 security
note) -/

/-- A chunk of a character stream: a maximal run of token characters, or a
single separator character. -/
inductive Chunk where
  | run (r : List Char) : Chunk
  | sep (c : Char) : Chunk
deriving DecidableEq

/-- Split a character stream into maximal token-character runs and separator
characters. -/
def chunksOf : List Char → List Chunk
  | [] => []
  | c :: cs =>
    if isTokChar c then
      match chunksOf cs with
      | Chunk.run r :: rest => Chunk.run (c :: r) :: rest
      | rest => Chunk.run [c] :: rest
    else Chunk.sep c :: chunksOf cs

/-- Characters that can begin a JavaScript identifier. -/
def isIdentStart (c : Char) : Bool := c.isAlpha || c == '_' || c == '$'

/-- The identifier token a chunk contributes, if any: a token run beginning
with an identifier character (dotted member chains count as one token; runs
beginning with a digit or a dot are numeric literals). -/
def identOfChunk : Chunk → Option String
  | .run r =>
    match r.head? with
    | some c => if isIdentStart c then some (String.mk r) else none
    | none => none
  | .sep _ => none

/-- The identifier-like tokens of a text: the maximal token runs that begin
with an identifier character. -/
def identTokens (s : String) : List String :=
  (chunksOf s.data).filterMap identOfChunk

/-- Rebuild the character stream of a chunk list. -/
def flattenChunks (ch : List Chunk) : List Char :=
  ch.flatMap fun c =>
    match c with
    | .run r => r
    | .sep c => [c]

/-- Does a chunk list not begin with a run (so a run prepended to it stays
maximal)? -/
def headSepChunk : List Chunk → Bool
  | .run _ :: _ => false
  | _ => true

/-- Well-formed chunk lists: runs are nonempty maximal token-character runs,
separators are single non-token characters. -/
def wfChunks : List Chunk → Bool
  | [] => true
  | .sep c :: ch => !isTokChar c && wfChunks ch
  | .run r :: ch => !r.isEmpty && r.all isTokChar && headSepChunk ch && wfChunks ch

/-- The chunk-level effect of `replaceCaret`: runs contain no caret (it is not
a token character) and the caret separator becomes two asterisk separators. -/
def expandChunk : Chunk → List Chunk
  | .run r => [.run r]
  | .sep c => if c == '^' then [.sep '*', .sep '*'] else [.sep c]

/-- `replaceCaret` at the chunk level. -/
def expandChunks (ch : List Chunk) : List Chunk :=
  ch.flatMap expandChunk

/-- One `\b`-replacement pass restricted to a single token run (a run starts
right after a non-word position, so the scan flag starts false). -/
def passRun (tgt rep : List Char) (ci : Bool) (r : List Char) : List Char :=
  replaceWordAll tgt rep ci false r

/-- One replacement pass at the chunk level: separators contain no word
characters, so only runs are transformed. -/
def passChunk (tgt rep : List Char) (ci : Bool) : Chunk → Chunk
  | .run r => .run (passRun tgt rep ci r)
  | .sep c => .sep c

/-- The whole rewriting pipeline restricted to a single token run: the `pi`
pass, then the function passes in source order (the caret pass leaves token
runs unchanged). -/
def pipelineRun (r : List Char) : List Char :=
  mathFuncs.foldl
    (fun acc fn => replaceWordAll fn.data ("Math." ++ fn).data false false acc)
    (replaceWordAll "pi".data "Math.PI".data true false r)

/-- The whole rewriting pipeline at the chunk level. -/
def pipelineChunk : Chunk → Chunk
  | .run r => .run (pipelineRun r)
  | .sep c => .sep c

/-- Replacement targets the chunk analysis supports: nonempty patterns of word
characters whose case-insensitive variants are also word characters (all the
source patterns are lowercase alphabetic). -/
def tgtOk (tgt : List Char) : Bool :=
  !tgt.isEmpty && tgt.all fun b => isWordChar b && isWordChar (upperChar b)

/-- Input identifiers that the preprocessing confines: the two variables, the
constant `pi` in each case pattern `\b`-matchable by `/\bpi\b/gi`, and the
whitelisted function names. -/
def allowedInputIdents : List String :=
  ["u", "v", "pi", "pI", "Pi", "PI"] ++ mathFuncs

/-- Identifiers a confined rewritten body may mention: the two parameters and
the `Math`-namespaced constant and functions. -/
def allowedOutputIdents : List String :=
  ["u", "v", "Math.PI"] ++ mathFuncs.map (fun fn => "Math." ++ fn)

/-- Modelled from the spec: in a browser the global scope (not repository
code) binds `alert`, an ambient I/O function; `new Function("u", "v",
"return alert(u);")` constructs successfully and the smoke call `f(0, 0)`
shows a dialog and returns `undefined` (a non-finite value) without
throwing. -/
def browserAlertFn {α : Type} [Zero α] : SurfFn α := fun _ _ => .ok ⟨0, false⟩

/-- Modelled from the spec: the browser engine on the one body the
counterexample needs; everything else is irrelevant to the claim and left as
a parse failure. -/
def browserEngine {α : Type} [Zero α] : String → Except String (SurfFn α) :=
  fun s => if s = "alert(u)" then .ok browserAlertFn else .error "not modelled"

/-! ### The drawing stroke recorder (lines 579-611) -/

/-- The pointer-gesture state: whether a stroke is being drawn and the points
recorded so far. -/
structure DrawState (α : Type) where
  isDrawing : Bool
  drawPoints : List (α × α)
deriving DecidableEq

/-- The pointer events the stroke recorder reacts to. -/
inductive DrawEvent (α : Type) where
  | start (p : α × α)
  | move (p : α × α)
  | finish
deriving DecidableEq

/-- Squared distance used by the `move` handler (line 598-600). -/
def dist2 {α : Type} [LinearOrderedField α] (last p : α × α) : α :=
  (p.1 - last.1) * (p.1 - last.1) + (p.2 - last.2) * (p.2 - last.2)

/-- One step of the gesture handlers `start` / `move` / `end`
(lines 579-611): `start` resets the stroke to the initial point; `move`
ignores events outside a gesture and discards a position whose squared
distance to the last recorded point is below 1; `end` only clears the
drawing flag. -/
def drawStep {α : Type} [LinearOrderedField α] (s : DrawState α) (e : DrawEvent α) :
    DrawState α :=
  match e with
  | .start p => { isDrawing := true, drawPoints := [p] }
  | .move p =>
    if s.isDrawing then
      match s.drawPoints.getLast? with
      | none => s
      | some last => if dist2 last p < 1 then s else { s with drawPoints := s.drawPoints ++ [p] }
    else s
  | .finish => { s with isDrawing := false }

/-- Run a pointer-event sequence from the initial state (no gesture, empty
stroke). -/
def runDraw {α : Type} [LinearOrderedField α] (events : List (DrawEvent α)) : DrawState α :=
  events.foldl drawStep ⟨false, []⟩

/-! ## Helper lemmas -/

theorem mapE_ok_of_forall {γ β ε : Type} (f : γ → Except ε β) (g : γ → β) :
    ∀ l : List γ, (∀ a ∈ l, f a = .ok (g a)) → mapE f l = .ok (l.map g) := by
  intro l h
  induction l with
  | nil => rfl
  | cons a l ih =>
    have ha := h a (List.mem_cons_self a l)
    have hl := ih fun x hx => h x (List.mem_cons_of_mem a hx)
    simp [mapE, ha, hl]

theorem mapE_error_split {γ β ε : Type} (f : γ → Except ε β) :
    ∀ (l : List γ) (e : ε), mapE f l = .error e →
      ∃ l₁ a l₂, l = l₁ ++ a :: l₂ ∧ f a = .error e ∧ ∀ x ∈ l₁, ∃ b, f x = .ok b := by
  intro l
  induction l with
  | nil => intro e h; simp [mapE] at h
  | cons a l ih =>
    intro e h
    cases hfa : f a with
    | error ea =>
      refine ⟨[], a, l, by simp, ?_, by simp⟩
      simp [mapE, hfa] at h
      rw [hfa, h]
    | ok b =>
      cases hml : mapE f l with
      | error e2 =>
        simp [mapE, hfa, hml] at h
        obtain ⟨l₁, x, l₂, rfl, hx, hpre⟩ := ih e2 hml
        refine ⟨a :: l₁, x, l₂, by simp, by rw [hx, h], ?_⟩
        intro y hy
        rcases List.mem_cons.1 hy with rfl | hy2
        · exact ⟨b, hfa⟩
        · exact hpre y hy2
      | ok bs => simp [mapE, hfa, hml] at h

theorem sum_map_range_eq {M : Type} [AddCommMonoid M] (f : ℕ → M) :
    ∀ n : ℕ, ((List.range n).map f).sum = ∑ i ∈ Finset.range n, f i := by
  intro n
  induction n with
  | zero => simp
  | succ n ih => rw [List.range_succ]; simp [ih, Finset.sum_range_succ]

/-! ## The stroke recorder invariant (claim C10) -/

theorem drawStep_chain {α : Type} [LinearOrderedField α] (s : DrawState α) (e : DrawEvent α)
    (h : List.Chain' (fun p q => 1 ≤ dist2 p q ∧ p ≠ q) s.drawPoints) :
    List.Chain' (fun p q => 1 ≤ dist2 p q ∧ p ≠ q) (drawStep s e).drawPoints := by
  cases e with
  | start p => simp [drawStep]
  | finish => simpa [drawStep] using h
  | move p =>
    cases hd : s.isDrawing with
    | false => simpa [drawStep, hd] using h
    | true =>
      cases hl : s.drawPoints.getLast? with
      | none => simpa [drawStep, hd, hl] using h
      | some last =>
        by_cases hlt : dist2 last p < 1
        · simpa [drawStep, hd, hl, hlt] using h
        · simp only [drawStep, hd, hl, hlt, if_false, if_true]
          rw [List.chain'_append]
          refine ⟨h, List.chain'_singleton p, ?_⟩
          intro x hx y hy
          rw [hl] at hx
          simp only [Option.mem_def, Option.some.injEq] at hx
          simp only [List.head?_cons, Option.mem_def, Option.some.injEq] at hy
          subst hx
          subst hy
          refine ⟨not_lt.1 hlt, ?_⟩
          intro hxy
          subst hxy
          simp [dist2] at hlt

theorem runDraw_chain_aux {α : Type} [LinearOrderedField α] :
    ∀ (events : List (DrawEvent α)) (s : DrawState α),
      List.Chain' (fun p q => 1 ≤ dist2 p q ∧ p ≠ q) s.drawPoints →
      List.Chain' (fun p q => 1 ≤ dist2 p q ∧ p ≠ q) (events.foldl drawStep s).drawPoints := by
  intro events
  induction events with
  | nil => intro s h; exact h
  | cons e es ih => intro s h; exact ih _ (drawStep_chain s e h)

/-- C10: for every pointer-event sequence, any two consecutive recorded stroke
points are at squared Euclidean distance at least 1 (a closer pointer-move
position is discarded), so a stroke never contains consecutive duplicate
points and its length only counts points at least one pixel apart. -/
theorem stroke_spacing_invariant {α : Type} [LinearOrderedField α]
    (events : List (DrawEvent α)) :
    List.Chain' (fun p q => 1 ≤ dist2 p q ∧ p ≠ q) (runDraw events).drawPoints :=
  runDraw_chain_aux events ⟨false, []⟩ (by simp)

/-! ## The expression compiler contract (claim C4) -/

/-- C4: `compileExpression` fails with the empty-expression error exactly when
the trimmed text is empty; otherwise a failure of the engine (parse error) or
of the mandatory smoke invocation at `u = 0`, `v = 0` is reported as a compile
error with the underlying message attached, and whenever a function is
returned the engine and the smoke test both succeeded. -/
theorem compileExpression_contract {α : Type} [Zero α] (exprRaw : String)
    (engine : String → Except String (SurfFn α)) :
    (jsTrim exprRaw = "" → compileExpression exprRaw engine = .error .emptyExpression) ∧
    (∀ m, jsTrim exprRaw ≠ "" → engine (rewriteExpression (jsTrim exprRaw)) = .error m →
      compileExpression exprRaw engine =
        .error (.compileError ("Could not parse expression: " ++ m))) ∧
    (∀ f m, jsTrim exprRaw ≠ "" → engine (rewriteExpression (jsTrim exprRaw)) = .ok f →
      f 0 0 = .error m →
      compileExpression exprRaw engine =
        .error (.compileError ("Could not parse expression: " ++ m))) ∧
    (∀ f, compileExpression exprRaw engine = .ok f →
      jsTrim exprRaw ≠ "" ∧ engine (rewriteExpression (jsTrim exprRaw)) = .ok f ∧
        ∃ w, f 0 0 = .ok w) := by
  refine ⟨?_, ?_, ?_, ?_⟩
  · intro h; simp [compileExpression, h]
  · intro m hne heng; simp [compileExpression, hne, heng]
  · intro f m hne heng hsm; simp [compileExpression, hne, heng, hsm]
  · intro f h
    by_cases hne : jsTrim exprRaw = ""
    · simp [compileExpression, hne] at h
    · cases heng : engine (rewriteExpression (jsTrim exprRaw)) with
      | error m => simp [compileExpression, hne, heng] at h
      | ok f0 =>
        cases hsm : f0 0 0 with
        | error m => simp [compileExpression, hne, heng, hsm] at h
        | ok w =>
          have hval : f0 = f := by
            simpa [compileExpression, hne, heng, hsm] using h
          subst hval
          exact ⟨hne, rfl, w, hsm⟩

theorem compileExpression_contract_witness :
    compileExpression (α := ℚ) "  " (fun _ => .error "boom") = .error .emptyExpression ∧
      compileExpression (α := ℚ) "u" (fun _ => .error "boom") =
        .error (.compileError ("Could not parse expression: " ++ "boom")) :=
  ⟨(compileExpression_contract "  " (fun _ => .error "boom")).1 (by decide),
   (compileExpression_contract "u" (fun _ => .error "boom")).2.1 "boom" (by decide) rfl⟩

/-! ## The bound evaluator contract (claim C7) -/

/-- C7: `evalNumericExpression` fails with the empty-bound error on empty
trimmed text, with the non-finite-bound error (a distinct error kind from the
compile error) when the evaluated result is not finite, with a compile error
wrapping the underlying message and echoing the original text when the engine
throws, and otherwise returns the finite evaluated value. -/
theorem evalNumericExpression_contract {α : Type} (exprRaw : String)
    (engine : String → Except String (JsNum α)) :
    (jsTrim exprRaw = "" → evalNumericExpression exprRaw engine = .error .emptyBound) ∧
    (∀ v, jsTrim exprRaw ≠ "" → engine (rewriteExpression (jsTrim exprRaw)) = .ok v →
      v.finite = false →
      evalNumericExpression exprRaw engine = .error (.nonFiniteBound exprRaw) ∧
        ∀ src m, (BoundErr.nonFiniteBound exprRaw) ≠ BoundErr.compileError src m) ∧
    (∀ m, jsTrim exprRaw ≠ "" → engine (rewriteExpression (jsTrim exprRaw)) = .error m →
      evalNumericExpression exprRaw engine = .error (.compileError exprRaw m) ∧
        boundErrMsg (.compileError exprRaw m) =
          "Could not parse bound \"" ++ exprRaw ++ "\": " ++ m) ∧
    (∀ v, jsTrim exprRaw ≠ "" → engine (rewriteExpression (jsTrim exprRaw)) = .ok v →
      v.finite = true → evalNumericExpression exprRaw engine = .ok v) := by
  refine ⟨?_, ?_, ?_, ?_⟩
  · intro h; simp [evalNumericExpression, h]
  · intro v hne heng hnf
    refine ⟨by simp [evalNumericExpression, hne, heng, hnf], ?_⟩
    intro src m hcontra
    exact BoundErr.noConfusion hcontra
  · intro m hne heng
    exact ⟨by simp [evalNumericExpression, hne, heng], rfl⟩
  · intro v hne heng hf; simp [evalNumericExpression, hne, heng, hf]

theorem evalNumericExpression_contract_witness :
    evalNumericExpression (α := ℚ) "" (fun _ => .ok ⟨1, true⟩) = .error .emptyBound ∧
      evalNumericExpression (α := ℚ) "1/0" (fun _ => .ok ⟨0, false⟩) =
        .error (.nonFiniteBound "1/0") ∧
      evalNumericExpression (α := ℚ) "2" (fun _ => .ok ⟨2, true⟩) = .ok ⟨2, true⟩ :=
  ⟨(evalNumericExpression_contract "" (fun _ => .ok ⟨1, true⟩)).1 rfl,
   ((evalNumericExpression_contract "1/0" (fun _ => .ok ⟨0, false⟩)).2.1
      ⟨0, false⟩ (by decide) rfl rfl).1,
   (evalNumericExpression_contract "2" (fun _ => .ok ⟨2, true⟩)).2.2.2
      ⟨2, true⟩ (by decide) rfl rfl⟩

/-! ## The Fourier coefficient formulas (claim C8) -/

theorem fourier_fold_char {α : Type} [LinearOrderedField α] (vv : ℕ → α)
    (wA wB : ℕ → ℕ → α) (P : ℕ → Prop) [DecidablePred P] :
    ∀ (l : List ℕ) (acc : α × (ℕ → α) × (ℕ → α)),
      l.foldl (fun (acc : α × (ℕ → α) × (ℕ → α)) n =>
        (acc.1 + vv n,
         fun k => if P k then acc.2.1 k + wA n k else acc.2.1 k,
         fun k => if P k then acc.2.2 k + wB n k else acc.2.2 k)) acc =
      (acc.1 + (l.map vv).sum,
       fun k => if P k then acc.2.1 k + ((l.map fun n => wA n k).sum) else acc.2.1 k,
       fun k => if P k then acc.2.2 k + ((l.map fun n => wB n k).sum) else acc.2.2 k) := by
  intro l
  induction l with
  | nil =>
    intro acc
    simp [ite_self]
  | cons n l ih =>
    intro acc
    rw [List.foldl_cons, ih]
    obtain ⟨x, f, g⟩ := acc
    simp only [Prod.mk.injEq, List.map_cons, List.sum_cons]
    refine ⟨by ring, ?_, ?_⟩ <;>
      · funext k
        by_cases hk : P k <;> simp [hk, add_assoc]

theorem computeFourierCoeffs_char {α : Type} [LinearOrderedField α] (cosF sinF : α → α)
    (piV : α) (vals : List α) (maxK : ℕ) :
    computeFourierCoeffs cosF sinF piV vals maxK =
      { a0 := 2 / (vals.length : α) *
          ∑ n ∈ Finset.range vals.length, vals.getD n 0,
        a := fun k => if 1 ≤ k ∧ k ≤ maxK then
            2 / (vals.length : α) * ∑ n ∈ Finset.range vals.length,
              vals.getD n 0 * cosF ((k : α) * (2 * piV * (n : α) / (vals.length : α)))
          else 0,
        b := fun k => if 1 ≤ k ∧ k ≤ maxK then
            2 / (vals.length : α) * ∑ n ∈ Finset.range vals.length,
              vals.getD n 0 * sinF ((k : α) * (2 * piV * (n : α) / (vals.length : α)))
          else 0,
        K := maxK } := by
  simp only [computeFourierCoeffs]
  rw [fourier_fold_char (fun n => vals.getD n 0)
    (fun n k => vals.getD n 0 * cosF ((k : α) * (2 * piV * (n : α) / (vals.length : α))))
    (fun n k => vals.getD n 0 * sinF ((k : α) * (2 * piV * (n : α) / (vals.length : α))))
    (fun k => 1 ≤ k ∧ k ≤ maxK) (List.range vals.length) (0, fun _ => 0, fun _ => 0)]
  simp only [FourierCoeffs.mk.injEq]
  refine ⟨by simp [sum_map_range_eq], ?_, ?_, trivial⟩ <;>
    · funext k
      by_cases hk : 1 ≤ k ∧ k ≤ maxK <;> simp [hk, sum_map_range_eq]

theorem fourierSeriesEval_char {α : Type} [LinearOrderedField α] (cosF sinF : α → α)
    (c : FourierCoeffs α) (t : α) :
    fourierSeriesEval cosF sinF c t =
      c.a0 / 2 + ∑ k ∈ Finset.Icc 1 c.K,
        (c.a k * cosF ((k : α) * t) + c.b k * sinF ((k : α) * t)) := by
  obtain ⟨a0, a, b, K⟩ := c
  simp only [fourierSeriesEval]
  induction K with
  | zero => simp
  | succ K ih =>
    rw [List.range'_concat, List.foldl_append, ih]
    rw [Finset.sum_Icc_succ_top (by omega : 1 ≤ K + 1)]
    simp only [List.foldl_cons, List.foldl_nil]
    have h1 : 1 + 1 * K = K + 1 := by omega
    rw [h1]
    ring

/-- C8: for every sample sequence of length at least 1 and every order at
least 1, `computeFourierCoeffs` produces `a0 = (2/N)·Σ vₙ`,
`aₖ = (2/N)·Σ vₙ·cos(k·tₙ)` and `bₖ = (2/N)·Σ vₙ·sin(k·tₙ)` for `k = 1..K`
with `tₙ = 2πn/N` (the sample index used as uniform angle), and
`fourierSeriesEval` returns `a0/2 + Σ aₖ·cos(kt) + bₖ·sin(kt)`. -/
theorem fourier_fit_formulas (vals : List ℝ) (maxK : ℕ)
    (_hN : 1 ≤ vals.length) (_hK : 1 ≤ maxK) :
    (computeFourierCoeffs Real.cos Real.sin Real.pi vals maxK).a0 =
      2 / (vals.length : ℝ) * ∑ n ∈ Finset.range vals.length, vals.getD n 0 ∧
    (∀ k, 1 ≤ k → k ≤ maxK →
      (computeFourierCoeffs Real.cos Real.sin Real.pi vals maxK).a k =
        2 / (vals.length : ℝ) * ∑ n ∈ Finset.range vals.length,
          vals.getD n 0 *
            Real.cos ((k : ℝ) * (2 * Real.pi * (n : ℝ) / (vals.length : ℝ))) ∧
      (computeFourierCoeffs Real.cos Real.sin Real.pi vals maxK).b k =
        2 / (vals.length : ℝ) * ∑ n ∈ Finset.range vals.length,
          vals.getD n 0 *
            Real.sin ((k : ℝ) * (2 * Real.pi * (n : ℝ) / (vals.length : ℝ)))) ∧
    (∀ t, fourierSeriesEval Real.cos Real.sin
        (computeFourierCoeffs Real.cos Real.sin Real.pi vals maxK) t =
      (computeFourierCoeffs Real.cos Real.sin Real.pi vals maxK).a0 / 2 +
        ∑ k ∈ Finset.Icc 1 maxK,
          ((computeFourierCoeffs Real.cos Real.sin Real.pi vals maxK).a k *
              Real.cos ((k : ℝ) * t) +
           (computeFourierCoeffs Real.cos Real.sin Real.pi vals maxK).b k *
              Real.sin ((k : ℝ) * t))) := by
  refine ⟨?_, ?_, ?_⟩
  · rw [computeFourierCoeffs_char]
  · intro k hk1 hk2
    rw [computeFourierCoeffs_char]
    simp [hk1, hk2]
  · intro t
    rw [fourierSeriesEval_char]
    rw [computeFourierCoeffs_char]

theorem fourier_fit_formulas_witness :
    1 ≤ ([(1 : ℝ)] : List ℝ).length ∧ 1 ≤ 1 ∧
      (computeFourierCoeffs Real.cos Real.sin Real.pi [(1 : ℝ)] 1).a0 =
        2 / (([(1 : ℝ)] : List ℝ).length : ℝ) *
          ∑ n ∈ Finset.range ([(1 : ℝ)] : List ℝ).length, ([(1 : ℝ)] : List ℝ).getD n 0 :=
  ⟨by simp, le_refl 1, (fourier_fit_formulas [(1 : ℝ)] 1 (by simp) (le_refl 1)).1⟩

/-! ## Tessellation structure (claims C1 and C6) -/

theorem length_flatMap_const {β : Type} (f : ℕ → List β) (n m : ℕ)
    (h : ∀ k, k < n → (f k).length = m) :
    ((List.range n).flatMap f).length = n * m := by
  induction n with
  | zero => simp
  | succ n ih =>
    rw [List.range_succ, List.flatMap_append]
    simp only [List.length_append, List.flatMap_cons, List.flatMap_nil, List.append_nil]
    rw [ih fun k hk => h k (by omega), h n (by omega), Nat.succ_mul]

theorem getElem?_flatMap_const {β : Type} (f : ℕ → List β) (n m i j : ℕ)
    (h : ∀ k, k < n → (f k).length = m) (hi : i < n) (hj : j < m) :
    ((List.range n).flatMap f)[i * m + j]? = (f i)[j]? := by
  induction n with
  | zero => omega
  | succ n ih =>
    rw [List.range_succ, List.flatMap_append]
    by_cases hin : i < n
    · rw [List.getElem?_append_left]
      · exact ih (fun k hk => h k (by omega)) hin
      · rw [length_flatMap_const f n m fun k hk => h k (by omega)]
        have h1 : (i + 1) * m ≤ n * m := Nat.mul_le_mul_right m (by omega)
        have h2 : i * m + j < i * m + m := Nat.add_lt_add_left hj _
        have h3 : i * m + m = (i + 1) * m := (Nat.succ_mul i m).symm
        exact lt_of_lt_of_le (h3 ▸ h2) h1
    · have hieq : i = n := by omega
      subst hieq
      rw [List.getElem?_append_right]
      · rw [length_flatMap_const f i m fun k hk => h k (by omega)]
        simp only [List.flatMap_cons, List.flatMap_nil, List.append_nil]
        have h4 : i * m + j - i * m = j := by omega
        rw [h4]
      · rw [length_flatMap_const f i m fun k hk => h k (by omega)]
        exact Nat.le_add_right _ _

theorem gridPairs_length (uSteps vSteps : ℕ) :
    (gridPairs uSteps vSteps).length = (uSteps + 1) * (vSteps + 1) := by
  unfold gridPairs
  rw [length_flatMap_const _ _ (vSteps + 1)]
  intro k _
  simp

theorem gridPairs_get (uSteps vSteps i j : ℕ) (hi : i ≤ uSteps) (hj : j ≤ vSteps) :
    (gridPairs uSteps vSteps)[i * (vSteps + 1) + j]? = some (i, j) := by
  unfold gridPairs
  rw [getElem?_flatMap_const _ (uSteps + 1) (vSteps + 1) i j
    (fun k _ => by simp) (by omega) (by omega)]
  rw [List.getElem?_map, List.getElem?_range (by omega)]
  rfl

theorem flatMap_const_drop {β : Type} (f : ℕ → List β) (n m i : ℕ)
    (h : ∀ k, k < n → (f k).length = m) (hi : i < n) :
    ∃ rest, ((List.range n).flatMap f).drop (i * m) = f i ++ rest := by
  have h0 : List.range (i + (n - i)) = List.range i ++ (List.range (n - i)).map (i + ·) :=
    List.range_add i (n - i)
  rw [show i + (n - i) = n by omega] at h0
  rw [h0, List.flatMap_append]
  have hlen : ((List.range i).flatMap f).length = i * m :=
    length_flatMap_const f i m fun k hk => h k (by omega)
  rw [← hlen, List.drop_left]
  obtain ⟨d, hd⟩ : ∃ d, n - i = d + 1 := ⟨n - i - 1, by omega⟩
  rw [hd, List.range_succ_eq_map]
  refine ⟨(List.map Nat.succ (List.range d)).flatMap fun t => f (i + t), ?_⟩
  rw [List.flatMap_map, List.flatMap_cons, List.flatMap_map]
  simp

theorem evalVertex_lift {α : Type} [LinearOrderedField α] (fx fy fz : α → α → α) (u v : α) :
    evalVertex (liftFn fx) (liftFn fy) (liftFn fz) u v = .ok (fx u v, fy u v, fz u v) := rfl

theorem sampleGrid_lift {α : Type} [LinearOrderedField α] (fx fy fz : α → α → α)
    (uMin uMax vMin vMax : α) (uSteps vSteps : ℕ) :
    sampleGrid (liftFn fx) (liftFn fy) (liftFn fz) uMin uMax vMin vMax uSteps vSteps =
      .ok ((gridPairs uSteps vSteps).map fun ij =>
        (fx (surfU uMin uMax uSteps ij.1) (surfU vMin vMax vSteps ij.2),
         fy (surfU uMin uMax uSteps ij.1) (surfU vMin vMax vSteps ij.2),
         fz (surfU uMin uMax uSteps ij.1) (surfU vMin vMax vSteps ij.2))) :=
  mapE_ok_of_forall _ _ _ fun _ _ => rfl

theorem meshIndices_length (uSteps vSteps : ℕ) :
    (meshIndices uSteps vSteps).length = 6 * (uSteps * vSteps) := by
  unfold meshIndices
  rw [length_flatMap_const
    (fun i => (List.range vSteps).flatMap fun j => cellIndices (vSteps + 1) i j)
    uSteps (vSteps * 6)]
  · ring
  · intro k _
    rw [length_flatMap_const (fun j => cellIndices (vSteps + 1) k j) vSteps 6]
    intro k2 _
    rfl

theorem meshIndices_block (uSteps vSteps i j : ℕ) (hi : i < uSteps) (hj : j < vSteps) :
    ((meshIndices uSteps vSteps).drop (6 * (i * vSteps + j))).take 6 =
      cellIndices (vSteps + 1) i j := by
  unfold meshIndices
  obtain ⟨rest1, hdrop1⟩ :=
    flatMap_const_drop (fun k => (List.range vSteps).flatMap fun j2 => cellIndices (vSteps + 1) k j2)
      uSteps (vSteps * 6) i
      (fun k _ => by
        rw [length_flatMap_const (fun j2 => cellIndices (vSteps + 1) k j2) vSteps 6]
        intro k2 _
        rfl)
      hi
  obtain ⟨rest2, hdrop2⟩ :=
    flatMap_const_drop (fun j2 => cellIndices (vSteps + 1) i j2) vSteps 6 j
      (fun k _ => rfl) hj
  have harith : 6 * (i * vSteps + j) = i * (vSteps * 6) + j * 6 := by ring
  rw [harith, ← List.drop_drop, hdrop1]
  rw [List.drop_append_of_le_length (by
    rw [length_flatMap_const (fun j2 => cellIndices (vSteps + 1) i j2) vSteps 6 fun k _ => rfl]
    have := Nat.mul_le_mul_right 6 (by omega : j + 1 ≤ vSteps)
    rw [Nat.succ_mul] at this
    omega)]
  rw [hdrop2, List.append_assoc]
  exact List.take_left' rfl

/-- C1: for every valid SurfaceSpec, tessellation produces exactly
`(uSteps+1)*(vSteps+1)` vertices, the vertex at flat index
`i*(vSteps+1)+j` being the surface evaluated at
`u = uMin + (uMax-uMin)*i/uSteps`, `v = vMin + (vMax-vMin)*j/vSteps`, and
exactly `6*uSteps*vSteps` triangle indices, cell `(i,j)` contributing the two
triangles `(a,b,d)` then `(b,c,d)` with `a = i*vCount+j`, `b = (i+1)*vCount+j`,
`c = (i+1)*vCount+(j+1)`, `d = i*vCount+(j+1)`. -/
theorem tessellation_grid_structure {α : Type} [LinearOrderedField α]
    (fx fy fz : α → α → α) (uMin uMax vMin vMax : α) (uSteps vSteps : ℕ)
    (_hu4 : 4 ≤ uSteps) (_hv4 : 4 ≤ vSteps) (_hcap : uSteps * vSteps ≤ 50000)
    (_hub : uMin < uMax) (_hvb : vMin < vMax) :
    ∃ ps,
      sampleGrid (liftFn fx) (liftFn fy) (liftFn fz) uMin uMax vMin vMax uSteps vSteps =
        .ok ps ∧
      ps.length = (uSteps + 1) * (vSteps + 1) ∧
      (∀ i j, i ≤ uSteps → j ≤ vSteps →
        ps[i * (vSteps + 1) + j]? =
          some (fx (uMin + (uMax - uMin) * (i : α) / (uSteps : α))
                  (vMin + (vMax - vMin) * (j : α) / (vSteps : α)),
                fy (uMin + (uMax - uMin) * (i : α) / (uSteps : α))
                  (vMin + (vMax - vMin) * (j : α) / (vSteps : α)),
                fz (uMin + (uMax - uMin) * (i : α) / (uSteps : α))
                  (vMin + (vMax - vMin) * (j : α) / (vSteps : α)))) ∧
      (meshIndices uSteps vSteps).length = 6 * (uSteps * vSteps) ∧
      (∀ i j, i < uSteps → j < vSteps →
        ((meshIndices uSteps vSteps).drop (6 * (i * vSteps + j))).take 6 =
          [i * (vSteps + 1) + j, (i + 1) * (vSteps + 1) + j, i * (vSteps + 1) + (j + 1),
           (i + 1) * (vSteps + 1) + j, (i + 1) * (vSteps + 1) + (j + 1),
           i * (vSteps + 1) + (j + 1)]) := by
  refine ⟨_, sampleGrid_lift fx fy fz uMin uMax vMin vMax uSteps vSteps, ?_, ?_, ?_, ?_⟩
  · rw [List.length_map, gridPairs_length]
  · intro i j hi hj
    rw [List.getElem?_map, gridPairs_get uSteps vSteps i j hi hj]
    simp [surfU]
  · exact meshIndices_length uSteps vSteps
  · intro i j hi hj
    rw [meshIndices_block uSteps vSteps i j hi hj]
    rfl

theorem tessellation_grid_structure_witness :
    ∃ ps,
      sampleGrid (liftFn fun (u v : ℚ) => u + v) (liftFn fun (u _ : ℚ) => u)
          (liftFn fun (_ v : ℚ) => v) 0 1 0 1 4 4 = .ok ps ∧
        ps.length = (4 + 1) * (4 + 1) := by
  obtain ⟨ps, h1, h2, -, -, -⟩ :=
    tessellation_grid_structure (fun (u v : ℚ) => u + v) (fun u _ => u) (fun _ v => v)
      0 1 0 1 4 4 (le_refl 4) (le_refl 4) (by norm_num) (by norm_num) (by norm_num)
  exact ⟨ps, h1, h2⟩

/-- C6: the vertex at flat index 0 is the surface at `(uMin, vMin)`, and the
vertex at flat index `(uCount-1)*vCount + (vCount-1)` is the surface at
exactly `(uMax, vMax)`: at `i = uSteps` and `j = vSteps` the interpolation
formulas reduce identically to `uMax` and `vMax` (the embedding works in
exact field arithmetic). -/
theorem grid_boundary_exactness {α : Type} [LinearOrderedField α]
    (fx fy fz : α → α → α) (uMin uMax vMin vMax : α) (uSteps vSteps : ℕ)
    (hu4 : 4 ≤ uSteps) (hv4 : 4 ≤ vSteps) (_hcap : uSteps * vSteps ≤ 50000)
    (_hub : uMin < uMax) (_hvb : vMin < vMax) :
    surfU uMin uMax uSteps 0 = uMin ∧ surfU vMin vMax vSteps 0 = vMin ∧
    surfU uMin uMax uSteps uSteps = uMax ∧ surfU vMin vMax vSteps vSteps = vMax ∧
    ∃ ps,
      sampleGrid (liftFn fx) (liftFn fy) (liftFn fz) uMin uMax vMin vMax uSteps vSteps =
        .ok ps ∧
      ps[(0 : ℕ)]? = some (fx uMin vMin, fy uMin vMin, fz uMin vMin) ∧
      ps[((uSteps + 1) - 1) * (vSteps + 1) + ((vSteps + 1) - 1)]? =
        some (fx uMax vMax, fy uMax vMax, fz uMax vMax) := by
  have hUne : (uSteps : α) ≠ 0 := Nat.cast_ne_zero.mpr (by omega)
  have hVne : (vSteps : α) ≠ 0 := Nat.cast_ne_zero.mpr (by omega)
  have hu0 : surfU uMin uMax uSteps 0 = uMin := by simp [surfU]
  have hv0 : surfU vMin vMax vSteps 0 = vMin := by simp [surfU]
  have huN : surfU uMin uMax uSteps uSteps = uMax := by
    unfold surfU
    rw [mul_div_assoc, div_self hUne, mul_one]
    ring
  have hvN : surfU vMin vMax vSteps vSteps = vMax := by
    unfold surfU
    rw [mul_div_assoc, div_self hVne, mul_one]
    ring
  refine ⟨hu0, hv0, huN, hvN, _,
    sampleGrid_lift fx fy fz uMin uMax vMin vMax uSteps vSteps, ?_, ?_⟩
  · have h0 : (0 : ℕ) = 0 * (vSteps + 1) + 0 := by omega
    rw [h0, List.getElem?_map, gridPairs_get uSteps vSteps 0 0 (by omega) (by omega)]
    simp [hu0, hv0]
  · have hidx : ((uSteps + 1) - 1) * (vSteps + 1) + ((vSteps + 1) - 1) =
      uSteps * (vSteps + 1) + vSteps := by simp
    rw [hidx, List.getElem?_map,
      gridPairs_get uSteps vSteps uSteps vSteps (le_refl uSteps) (le_refl vSteps)]
    simp [huN, hvN]

theorem grid_boundary_exactness_witness :
    surfU (0 : ℚ) 1 4 0 = 0 ∧ surfU (0 : ℚ) 2 4 0 = 0 ∧
      surfU (0 : ℚ) 1 4 4 = 1 ∧ surfU (0 : ℚ) 2 4 4 = 2 := by
  obtain ⟨h1, h2, h3, h4, -⟩ :=
    grid_boundary_exactness (fun (u v : ℚ) => u * v) (fun u _ => u) (fun _ v => v)
      0 1 0 2 4 4 (le_refl 4) (le_refl 4) (by norm_num) (by norm_num) (by norm_num)
  exact ⟨h1, h2, h3, h4⟩

/-! ## Build-request atomicity and fail-fast sampling (claim C2) -/

theorem buildSurface_cases {α : Type} [LinearOrderedField α]
    (uMinS uMaxS vMinS vMaxS : String) (bndEngine : String → Except String (JsNum α))
    (uStepsI vStepsI : Option ℤ) (xExpr yExpr zExpr : String)
    (fnEngine : String → Except String (SurfFn α)) (currentMesh : Option (Mesh α)) :
    (∃ e, buildSurface uMinS uMaxS vMinS vMaxS bndEngine uStepsI vStepsI
        xExpr yExpr zExpr fnEngine currentMesh = ⟨currentMesh, [], .error e⟩) ∨
    (∃ m, buildSurface uMinS uMaxS vMinS vMaxS bndEngine uStepsI vStepsI
        xExpr yExpr zExpr fnEngine currentMesh = ⟨some m, currentMesh.toList, .ok m⟩) := by
  unfold buildSurface
  split
  · exact Or.inl ⟨_, rfl⟩
  · split
    · exact Or.inl ⟨_, rfl⟩
    · split
      · exact Or.inl ⟨_, rfl⟩
      · split
        · exact Or.inl ⟨_, rfl⟩
        · split
          · exact Or.inl ⟨_, rfl⟩
          · exact Or.inr ⟨_, rfl⟩

/-- C2: a build request that fails at any stage (grid validation, expression
compilation, an evaluation exception, or a non-finite coordinate) leaves the
displayed mesh installed and releases nothing; the old mesh is released and
replaced exactly when the new mesh has been fully constructed; and a failing
sampling pass fails with the error of the first bad sample in traversal
order, producing no partial vertex list. -/
theorem buildSurface_atomic_failfast {α : Type} [LinearOrderedField α]
    (uMinS uMaxS vMinS vMaxS : String) (bndEngine : String → Except String (JsNum α))
    (uStepsI vStepsI : Option ℤ) (xExpr yExpr zExpr : String)
    (fnEngine : String → Except String (SurfFn α)) (currentMesh : Option (Mesh α)) :
    (∀ e, (buildSurface uMinS uMaxS vMinS vMaxS bndEngine uStepsI vStepsI
        xExpr yExpr zExpr fnEngine currentMesh).result = .error e →
      buildSurface uMinS uMaxS vMinS vMaxS bndEngine uStepsI vStepsI
        xExpr yExpr zExpr fnEngine currentMesh = ⟨currentMesh, [], .error e⟩) ∧
    (∀ m, (buildSurface uMinS uMaxS vMinS vMaxS bndEngine uStepsI vStepsI
        xExpr yExpr zExpr fnEngine currentMesh).result = .ok m →
      buildSurface uMinS uMaxS vMinS vMaxS bndEngine uStepsI vStepsI
        xExpr yExpr zExpr fnEngine currentMesh = ⟨some m, currentMesh.toList, .ok m⟩) ∧
    (∀ (fx fy fz : SurfFn α) (uMin uMax vMin vMax : α) (uSteps vSteps : ℕ) e,
      sampleGrid fx fy fz uMin uMax vMin vMax uSteps vSteps = .error e →
      ∃ pre ij post, gridPairs uSteps vSteps = pre ++ ij :: post ∧
        evalVertex fx fy fz (surfU uMin uMax uSteps ij.1) (surfU vMin vMax vSteps ij.2) =
          .error e ∧
        ∀ ij2 ∈ pre, ∃ w,
          evalVertex fx fy fz (surfU uMin uMax uSteps ij2.1)
            (surfU vMin vMax vSteps ij2.2) = .ok w) := by
  refine ⟨?_, ?_, ?_⟩
  · intro e he
    rcases buildSurface_cases uMinS uMaxS vMinS vMaxS bndEngine uStepsI vStepsI
        xExpr yExpr zExpr fnEngine currentMesh with ⟨e1, h1⟩ | ⟨m, h1⟩
    · rw [h1] at he
      simp only [Except.error.injEq] at he
      rw [h1, he]
    · rw [h1] at he
      simp at he
  · intro m hm
    rcases buildSurface_cases uMinS uMaxS vMinS vMaxS bndEngine uStepsI vStepsI
        xExpr yExpr zExpr fnEngine currentMesh with ⟨e1, h1⟩ | ⟨m1, h1⟩
    · rw [h1] at hm
      simp at hm
    · rw [h1] at hm
      simp only [Except.ok.injEq] at hm
      rw [h1, hm]
  · intro fx fy fz uMin uMax vMin vMax uSteps vSteps e hsg
    unfold sampleGrid at hsg
    obtain ⟨pre, ij, post, hsplit, hbad, hgood⟩ := mapE_error_split _ _ _ hsg
    exact ⟨pre, ij, post, hsplit, hbad, hgood⟩

theorem buildSurface_atomic_failfast_witness :
    buildSurface "0" "0" "0" "0" (fun _ => .ok ⟨0, true⟩) (some 10) (some 10)
        "x" "y" "z" (fun _ => .error "no") (some (⟨[], []⟩ : Mesh ℚ)) =
      ⟨some ⟨[], []⟩, [],
        .error (.invalidGridSpec "Max bounds must be greater than min bounds.")⟩ :=
  (buildSurface_atomic_failfast "0" "0" "0" "0" (fun _ => .ok ⟨0, true⟩) (some 10) (some 10)
      "x" "y" "z" (fun _ => .error "no") (some (⟨[], []⟩ : Mesh ℚ))).1
    (.invalidGridSpec "Max bounds must be greater than min bounds.") (by rfl)

/-! ## Grid-precondition rejection (claim C3) -/

theorem validateSteps_ok {uStepsI vStepsI : Option ℤ} {st : ℕ × ℕ}
    (h : validateSteps uStepsI vStepsI = .ok st) :
    ∃ nu nv, uStepsI = some nu ∧ vStepsI = some nv ∧ 4 ≤ nu ∧ 4 ≤ nv ∧
      nu * nv ≤ 50000 ∧ st.1 = nu.toNat ∧ st.2 = nv.toNat := by
  cases uStepsI with
  | none => simp [validateSteps] at h
  | some nu =>
    by_cases h4u : nu < 4
    · simp [validateSteps, h4u] at h
    · cases vStepsI with
      | none => simp [validateSteps, h4u] at h
      | some nv =>
        by_cases h4v : nv < 4
        · simp [validateSteps, h4u, h4v] at h
        · by_cases hcap : 50000 < nu * nv
          · simp [validateSteps, h4u, h4v, hcap] at h
          · refine ⟨nu, nv, rfl, rfl, by omega, by omega, by omega, ?_, ?_⟩ <;>
            · simp [validateSteps, h4u, h4v, hcap] at h
              rw [← h]

theorem validateStage_ok {α : Type} [LinearOrderedField α]
    {uMinS uMaxS vMinS vMaxS : String} {bndEngine : String → Except String (JsNum α)}
    {uStepsI vStepsI : Option ℤ} {g : GridSpec α}
    (h : validateStage uMinS uMaxS vMinS vMaxS bndEngine uStepsI vStepsI = .ok g) :
    (∃ mn, evalNumericExpression uMinS bndEngine = .ok mn ∧ mn.val = g.uMin) ∧
    (∃ mx, evalNumericExpression uMaxS bndEngine = .ok mx ∧ mx.val = g.uMax) ∧
    (∃ mn, evalNumericExpression vMinS bndEngine = .ok mn ∧ mn.val = g.vMin) ∧
    (∃ mx, evalNumericExpression vMaxS bndEngine = .ok mx ∧ mx.val = g.vMax) ∧
    g.uMin < g.uMax ∧ g.vMin < g.vMax ∧
    (∃ nu nv, uStepsI = some nu ∧ vStepsI = some nv ∧ 4 ≤ nu ∧ 4 ≤ nv ∧
      nu * nv ≤ 50000 ∧ g.uSteps = nu.toNat ∧ g.vSteps = nv.toNat) := by
  unfold validateStage at h
  split at h
  next e heq => exact Except.noConfusion h
  next uMinN h1 =>
  split at h
  next e heq => exact Except.noConfusion h
  next uMaxN h2 =>
  split at h
  next e heq => exact Except.noConfusion h
  next vMinN h3 =>
  split at h
  next e heq => exact Except.noConfusion h
  next vMaxN h4 =>
  split at h
  next hfin => exact Except.noConfusion h
  next hfin =>
  split at h
  next hord => exact Except.noConfusion h
  next hord =>
  split at h
  next e h5 => exact Except.noConfusion h
  next st h5 =>
  simp only [Except.ok.injEq] at h
  subst h
  push_neg at hord
  obtain ⟨nu, nv, hnu, hnv, h4u, h4v, hcap, hs1, hs2⟩ := validateSteps_ok h5
  exact ⟨⟨uMinN, h1, rfl⟩, ⟨uMaxN, h2, rfl⟩, ⟨vMinN, h3, rfl⟩, ⟨vMaxN, h4, rfl⟩,
    hord.1, hord.2, nu, nv, hnu, hnv, h4u, h4v, hcap, hs1, hs2⟩

/-- C3: every tessellation request violating a precondition — a non-finite
bound, `uMax ≤ uMin`, `vMax ≤ vMin`, a step count below 4, or
`uSteps*vSteps > 50000` — fails with the invalid-grid-spec error, with an
outcome independent of the surface expressions and their engine (so no
surface expression is ever compiled or evaluated), regardless of the other
parameters. -/
theorem invalid_gridspec_rejected {α : Type} [LinearOrderedField α]
    (uMinS uMaxS vMinS vMaxS : String) (bndEngine : String → Except String (JsNum α))
    (uStepsI vStepsI : Option ℤ)
    (hviol : gridSpecViolated uMinS uMaxS vMinS vMaxS bndEngine uStepsI vStepsI) :
    ∃ r, ∀ (xExpr yExpr zExpr : String)
      (fnEngine : String → Except String (SurfFn α)) (currentMesh : Option (Mesh α)),
      buildSurface uMinS uMaxS vMinS vMaxS bndEngine uStepsI vStepsI
        xExpr yExpr zExpr fnEngine currentMesh =
        ⟨currentMesh, [], .error (.invalidGridSpec r)⟩ := by
  cases hval : validateStage uMinS uMaxS vMinS vMaxS bndEngine uStepsI vStepsI with
  | ok g =>
    exfalso
    obtain ⟨⟨mn1, hm1, hq1⟩, ⟨mx1, hx1, hq2⟩, ⟨mn2, hm2, hq3⟩, ⟨mx2, hx2, hq4⟩,
      hord1, hord2, nu, nv, hnu, hnv, h4u, h4v, hcap, -, -⟩ := validateStage_ok hval
    rcases hviol with (h | h | h | h) | ⟨a, b, ha, hb, hle⟩ | ⟨a, b, ha, hb, hle⟩ |
      ⟨n, hn, hlt⟩ | ⟨n, hn, hlt⟩ | ⟨a, b, ha, hb, hgt⟩
    · rw [hm1] at h; exact Except.noConfusion h
    · rw [hx1] at h; exact Except.noConfusion h
    · rw [hm2] at h; exact Except.noConfusion h
    · rw [hx2] at h; exact Except.noConfusion h
    · rw [hm1] at ha; rw [hx1] at hb
      obtain rfl : mn1 = a := by injection ha
      obtain rfl : mx1 = b := by injection hb
      rw [hq1, hq2] at hle
      exact absurd hord1 (not_lt.mpr hle)
    · rw [hm2] at ha; rw [hx2] at hb
      obtain rfl : mn2 = a := by injection ha
      obtain rfl : mx2 = b := by injection hb
      rw [hq3, hq4] at hle
      exact absurd hord2 (not_lt.mpr hle)
    · rw [hnu] at hn
      obtain rfl : nu = n := by injection hn
      omega
    · rw [hnv] at hn
      obtain rfl : nv = n := by injection hn
      omega
    · rw [hnu] at ha; rw [hnv] at hb
      obtain rfl : nu = a := by injection ha
      obtain rfl : nv = b := by injection hb
      omega
  | error r =>
    refine ⟨r, ?_⟩
    intro xExpr yExpr zExpr fnEngine currentMesh
    unfold buildSurface
    rw [hval]

theorem invalid_gridspec_rejected_witness :
    ∃ r, ∀ (xExpr yExpr zExpr : String)
      (fnEngine : String → Except String (SurfFn ℚ)) (currentMesh : Option (Mesh ℚ)),
      buildSurface "0" "1" "0" "1" (fun _ => .ok ⟨0, true⟩) (some 3) (some 10)
        xExpr yExpr zExpr fnEngine currentMesh =
        ⟨currentMesh, [], .error (.invalidGridSpec r)⟩ :=
  invalid_gridspec_rejected "0" "1" "0" "1" (fun _ => .ok ⟨0, true⟩) (some 3) (some 10)
    (Or.inr (Or.inr (Or.inr (Or.inl ⟨3, rfl, by norm_num⟩))))

/-! ## Digit rendering and parsing (claim C9 infrastructure) -/

theorem digitChar_isDigit {n : ℕ} (h : n < 10) : (Char.ofNat (48 + n)).isDigit = true := by
  interval_cases n <;> decide

theorem digitChar_toNat {n : ℕ} (h : n < 10) : (Char.ofNat (48 + n)).toNat = 48 + n := by
  interval_cases n <;> decide

theorem natDigits_ne_nil (n : ℕ) : natDigits n ≠ [] := by
  rw [natDigits]
  split <;> simp

theorem natDigits_digit : ∀ n : ℕ, ∀ c ∈ natDigits n, c.isDigit = true := by
  intro n
  induction n using Nat.strong_induction_on with
  | _ n ih =>
    rw [natDigits]
    split
    next h =>
      intro c hc
      simp only [List.mem_singleton] at hc
      subst hc
      exact digitChar_isDigit h
    next h =>
      intro c hc
      rcases List.mem_append.1 hc with h1 | h2
      · exact ih (n / 10) (Nat.div_lt_self (by omega) (by omega)) c h1
      · simp only [List.mem_singleton] at h2
        subst h2
        exact digitChar_isDigit (Nat.mod_lt n (by omega))

theorem natDigits_length_le : ∀ k n : ℕ, 1 ≤ k → n < 10 ^ k → (natDigits n).length ≤ k := by
  intro k
  induction k with
  | zero => omega
  | succ k ih =>
    intro n _ hn
    rw [natDigits]
    split
    next h => simp
    next h =>
      push_neg at h
      have hk1 : 1 ≤ k := by
        rcases Nat.eq_zero_or_pos k with rfl | hp
        · rw [pow_one] at hn; omega
        · exact hp
      have hdiv : n / 10 < 10 ^ k := by
        rw [Nat.div_lt_iff_lt_mul (by omega : 0 < 10)]
        calc n < 10 ^ (k + 1) := hn
        _ = 10 ^ k * 10 := by ring
      have hlen := ih (n / 10) hk1 hdiv
      simp only [List.length_append, List.length_cons, List.length_nil]
      omega

theorem parseDigits_stop (acc : ℕ) (rest : List Char)
    (h : ∀ c, rest.head? = some c → c.isDigit = false) :
    parseDigits acc rest = (acc, rest) := by
  cases rest with
  | nil => rfl
  | cons c cs =>
    have hc := h c rfl
    simp [parseDigits, hc]

theorem parseDigits_natDigits : ∀ n acc : ℕ, ∀ rest : List Char,
    parseDigits acc (natDigits n ++ rest) =
      parseDigits (acc * 10 ^ (natDigits n).length + n) rest := by
  intro n
  induction n using Nat.strong_induction_on with
  | _ n ih =>
    intro acc rest
    by_cases h : n < 10
    · rw [natDigits, dif_pos h]
      simp only [List.singleton_append, List.length_cons, List.length_nil]
      rw [show (Char.ofNat (48 + n)) :: rest = [Char.ofNat (48 + n)] ++ rest from rfl]
      simp only [List.singleton_append, parseDigits, digitChar_isDigit h, if_true,
        digitChar_toNat h]
      congr 1
      have h48 : 48 + n - 48 = n := by omega
      rw [h48, pow_one]
    · rw [natDigits, dif_neg h]
      rw [List.append_assoc, List.singleton_append]
      rw [ih (n / 10) (Nat.div_lt_self (by omega) (by omega))]
      have hd : n % 10 < 10 := Nat.mod_lt n (by omega)
      simp only [parseDigits, digitChar_isDigit hd, if_true, digitChar_toNat hd]
      congr 1
      have hlen : (natDigits (n / 10) ++ [Char.ofNat (48 + n % 10)]).length =
          (natDigits (n / 10)).length + 1 := by simp
      rw [hlen, pow_succ]
      have key : (acc * 10 ^ (natDigits (n / 10)).length + n / 10) * 10 +
          (48 + n % 10 - 48) =
          acc * (10 ^ (natDigits (n / 10)).length * 10) + (n / 10 * 10 + n % 10) := by
        have h48 : 48 + n % 10 - 48 = n % 10 := by omega
        rw [h48]; ring
      rw [key, show n / 10 * 10 + n % 10 = n by omega]

theorem parseDigits_replicate_zero : ∀ k acc : ℕ, ∀ l : List Char,
    parseDigits acc (List.replicate k '0' ++ l) = parseDigits (acc * 10 ^ k) l := by
  intro k
  induction k with
  | zero => intro acc l; simp
  | succ k ih =>
    intro acc l
    rw [List.replicate_succ, List.cons_append]
    simp only [parseDigits, show ('0').isDigit = true from rfl, if_true,
      show ('0').toNat - 48 = 0 from rfl, Nat.add_zero]
    rw [ih]
    congr 1
    ring

theorem pad4_length {m : ℕ} (hm : m < 10000) : (pad4 m).length = 4 := by
  unfold pad4
  have hle : (natDigits m).length ≤ 4 :=
    natDigits_length_le 4 m (by omega) (by norm_num; omega)
  simp only [List.length_append, List.length_replicate]
  omega

theorem pad4_digits {m : ℕ} : ∀ c ∈ pad4 m, c.isDigit = true := by
  intro c hc
  unfold pad4 at hc
  rcases List.mem_append.1 hc with h | h
  · rw [List.eq_of_mem_replicate h]; rfl
  · exact natDigits_digit m c h

theorem pad4_ne_nil (m : ℕ) : pad4 m ≠ [] := by
  unfold pad4
  intro h
  exact natDigits_ne_nil m (List.append_eq_nil.mp h).2

theorem parseDigits_pad4 (m : ℕ) (rest : List Char)
    (h : ∀ c, rest.head? = some c → c.isDigit = false) :
    parseDigits 0 (pad4 m ++ rest) = (m, rest) := by
  unfold pad4
  rw [List.append_assoc, parseDigits_replicate_zero, zero_mul, parseDigits_natDigits,
    zero_mul, zero_add, parseDigits_stop m rest h]

theorem toFixed4_data (m : ℕ) :
    (toFixed4 ((m : ℚ) / 10000)).data =
      natDigits (m / 10000) ++ '.' :: pad4 (m % 10000) := by
  unfold toFixed4
  rw [div_mul_cancel₀ (m : ℚ) (by norm_num : (10000 : ℚ) ≠ 0), round_natCast,
    Int.toNat_natCast]
  rw [String.data_append, String.data_append]
  simp [List.append_assoc]

theorem toFixed4_round4_eq (x : ℚ) : toFixed4 (round4 x) = toFixed4 x := by
  unfold toFixed4 round4
  rw [div_mul_cancel₀ _ (by norm_num : (10000 : ℚ) ≠ 0), round_intCast]

theorem round4_nonneg_form (x : ℚ) (hx : 0 ≤ x) : ∃ m : ℕ, round4 x = (m : ℚ) / 10000 := by
  have h0 : 0 ≤ round (x * 10000) := by
    rw [round_eq]
    refine Int.floor_nonneg.mpr ?_
    have : 0 ≤ x * 10000 := by positivity
    linarith
  refine ⟨(round (x * 10000)).toNat, ?_⟩
  unfold round4
  congr 1
  have h := Int.toNat_of_nonneg h0
  exact_mod_cast (congrArg (fun z : ℤ => (z : ℚ)) h).symm

theorem round4_close (x : ℚ) : |round4 x - x| ≤ 1 / 20000 := by
  unfold round4
  have h := abs_sub_round (x * 10000)
  rw [abs_sub_comm] at h
  have h2 : ((round (x * 10000) : ℤ) : ℚ) / 10000 - x =
      (((round (x * 10000) : ℤ) : ℚ) - x * 10000) / 10000 := by ring
  rw [h2, abs_div, abs_of_pos (by norm_num : (0 : ℚ) < 10000)]
  calc |((round (x * 10000) : ℤ) : ℚ) - x * 10000| / 10000 ≤ (1 / 2) / 10000 :=
        (div_le_div_iff_of_pos_right (by norm_num)).mpr h
  _ = 1 / 20000 := by norm_num

theorem parseFixed_spec (a b : ℕ) (hb : b < 10000) (rest : List Char)
    (hrest : ∀ c, rest.head? = some c → c.isDigit = false) :
    parseFixed (natDigits a ++ '.' :: (pad4 b ++ rest)) =
      some ((a : ℚ) + (b : ℚ) / 10 ^ 4, rest) := by
  obtain ⟨c0, cs0, hc0⟩ := List.exists_cons_of_ne_nil (natDigits_ne_nil a)
  have hc0d : c0.isDigit = true :=
    natDigits_digit a c0 (by rw [hc0]; exact List.mem_cons_self _ _)
  have hhead : (natDigits a ++ '.' :: (pad4 b ++ rest)).head? = some c0 := by
    rw [hc0]; rfl
  have hint : parseDigits 0 (natDigits a ++ '.' :: (pad4 b ++ rest)) =
      (a, '.' :: (pad4 b ++ rest)) := by
    rw [parseDigits_natDigits, zero_mul, zero_add]
    refine parseDigits_stop _ _ fun c hc => ?_
    simp only [List.head?_cons, Option.some.injEq] at hc
    subst hc
    rfl
  obtain ⟨d0, ds0, hd0⟩ := List.exists_cons_of_ne_nil (pad4_ne_nil b)
  have hd0d : d0.isDigit = true :=
    pad4_digits d0 (by rw [hd0]; exact List.mem_cons_self _ _)
  have hh2 : (pad4 b ++ rest).head? = some d0 := by rw [hd0]; rfl
  have hfrac : parseDigits 0 (pad4 b ++ rest) = (b, rest) := parseDigits_pad4 b rest hrest
  have hlen : (pad4 b ++ rest).length - rest.length = 4 := by
    rw [List.length_append, pad4_length hb]
    omega
  unfold parseFixed
  rw [hhead]
  simp only [hc0d, if_true, hint, List.head?_cons, List.tail_cons, hh2, hd0d, hfrac, hlen]

theorem parseSep_plus (x : List Char) : parseSep (' ' :: '+' :: ' ' :: x) = some (false, x) := rfl

theorem parseSep_minus (x : List Char) : parseSep (' ' :: '-' :: ' ' :: x) = some (true, x) := rfl

theorem parseBase_const (s : List Char) (hs : s = [] ∨ ∃ t, s = ' ' :: t) :
    parseBase "u" s = some (.const, s) := by
  rcases hs with rfl | ⟨t, rfl⟩
  · rfl
  · rfl

theorem parseTrigArg_spec (k : ℕ) (r : List Char) :
    parseTrigArg "u" (natDigits k ++ '*' :: 'u' :: ')' :: r) = some (k, r) := by
  obtain ⟨c0, cs0, hc0⟩ := List.exists_cons_of_ne_nil (natDigits_ne_nil k)
  have hc0d : c0.isDigit = true :=
    natDigits_digit k c0 (by rw [hc0]; exact List.mem_cons_self _ _)
  have hhead : (natDigits k ++ '*' :: 'u' :: ')' :: r).head? = some c0 := by
    rw [hc0]; rfl
  have hpd : parseDigits 0 (natDigits k ++ '*' :: 'u' :: ')' :: r) =
      (k, '*' :: 'u' :: ')' :: r) := by
    rw [parseDigits_natDigits, zero_mul, zero_add]
    refine parseDigits_stop _ _ fun c hc => ?_
    simp only [List.head?_cons, Option.some.injEq] at hc
    subst hc
    rfl
  have hlit : parseLit ('*' :: ("u" : String).data ++ [')']) ('*' :: 'u' :: ')' :: r) =
      some r := rfl
  unfold parseTrigArg
  rw [hhead]
  simp only [hc0d, if_true, hpd, hlit]

theorem parseBase_cos (k : ℕ) (r : List Char) :
    parseBase "u" ("*cos(".data ++ natDigits k ++ '*' :: 'u' :: ')' :: r) =
      some (.cosk k, r) := by
  have hlit : parseLit "*cos(".data
      ("*cos(".data ++ natDigits k ++ '*' :: 'u' :: ')' :: r) =
      some (natDigits k ++ '*' :: 'u' :: ')' :: r) := by
    unfold parseLit
    simp [List.take_left, List.drop_left]
  unfold parseBase
  rw [hlit]
  simp only [parseTrigArg_spec k r]

theorem parseBase_sin (k : ℕ) (r : List Char) :
    parseBase "u" ("*sin(".data ++ natDigits k ++ '*' :: 'u' :: ')' :: r) =
      some (.sink k, r) := by
  have hlit : parseLit "*sin(".data
      ("*sin(".data ++ natDigits k ++ '*' :: 'u' :: ')' :: r) =
      some (natDigits k ++ '*' :: 'u' :: ')' :: r) := by
    unfold parseLit
    simp [List.take_left, List.drop_left]
  have hno : parseLit "*cos(".data
      ("*sin(".data ++ natDigits k ++ '*' :: 'u' :: ')' :: r) = none := by
    unfold parseLit
    rw [if_neg]
    intro h
    have h2 := congrArg (fun l => l[1]?) h
    simp at h2
  unfold parseBase
  rw [hno, hlit]
  simp only [parseTrigArg_spec k r]

/-! ## The builder as a rendering of its retained terms (claim C9) -/

theorem foldl_flatMap {σ γ β : Type} (g : γ → List β) (f : σ → β → σ) :
    ∀ (l : List γ) (init : σ),
      (l.flatMap g).foldl f init = l.foldl (fun acc x => (g x).foldl f acc) init := by
  intro l
  induction l with
  | nil => intro init; rfl
  | cons x l ih =>
    intro init
    rw [List.flatMap_cons, List.foldl_append, ih]
    rfl

theorem addTerm_skip (acc : String × Bool) (q : ℚ) (b : String) (hq : |q| < 1 / 10000) :
    addFourierTerm acc q b = acc := by
  unfold addFourierTerm
  rw [if_pos hq]

theorem addTerm_keep_false (e : String) (q : ℚ) (bs : String) (hq : ¬|q| < 1 / 10000) :
    addFourierTerm (e, false) q bs =
      (e ++ ((if q < 0 then " - " else " + ") ++
        (toFixed4 |q| ++ (if bs = "" then "" else "*" ++ bs))), false) := by
  unfold addFourierTerm
  rw [if_neg hq]
  simp only [String.append_assoc]
  rfl

theorem addTerm_keep_true (q : ℚ) (bs : String) (hq : ¬|q| < 1 / 10000) :
    addFourierTerm ("", true) q bs =
      ((if q < 0 then "-" else "") ++
        (toFixed4 |q| ++ (if bs = "" then "" else "*" ++ bs)), false) := by
  unfold addFourierTerm
  rw [if_neg hq]
  simp only [String.append_assoc]
  rfl

theorem mkFTerm_skip (q : ℚ) (b : FBase) (hq : |q| < 1 / 10000) : mkFTerm q b = none := by
  unfold mkFTerm
  rw [if_pos hq]

theorem mkFTerm_keep (q : ℚ) (b : FBase) (hq : ¬|q| < 1 / 10000) :
    mkFTerm q b = some ⟨decide (q < 0), round4 |q|, b⟩ := by
  unfold mkFTerm
  rw [if_neg hq]

theorem termTail_of_mk (q : ℚ) (b : FBase) :
    termTail ⟨decide (q < 0), round4 |q|, b⟩ "u" =
      toFixed4 |q| ++ (if baseString b "u" = "" then "" else "*" ++ baseString b "u") := by
  unfold termTail
  rw [toFixed4_round4_eq]

theorem addTerm_fold_false :
    ∀ (L : List (ℚ × FBase)) (e : String),
      L.foldl (fun acc qb => addFourierTerm acc qb.1 (baseString qb.2 "u")) (e, false) =
        (e ++ renderTermsTail (L.filterMap fun qb => mkFTerm qb.1 qb.2) "u", false) := by
  intro L
  induction L with
  | nil =>
    intro e
    simp [renderTermsTail]
  | cons qb rest ih =>
    intro e
    rw [List.foldl_cons]
    by_cases hq : |qb.1| < 1 / 10000
    · rw [addTerm_skip _ _ _ hq, ih, List.filterMap_cons, mkFTerm_skip _ _ hq]
    · rw [addTerm_keep_false _ _ _ hq, ih, List.filterMap_cons, mkFTerm_keep _ _ hq]
      show (e ++ ((if qb.1 < 0 then " - " else " + ") ++
          (toFixed4 |qb.1| ++
            (if baseString qb.2 "u" = "" then "" else "*" ++ baseString qb.2 "u"))) ++
          renderTermsTail (List.filterMap (fun qb => mkFTerm qb.1 qb.2) rest) "u",
        false) = _
      rw [renderTermsTail]
      simp only [termTail_of_mk]
      have hsep : (if (⟨decide (qb.1 < 0), round4 |qb.1|, qb.2⟩ : FTerm).neg
          then " - " else " + ") = (if qb.1 < 0 then " - " else " + ") := by
        by_cases hn : qb.1 < 0 <;> simp [hn]
      rw [hsep]
      simp [String.append_assoc]

theorem addTerm_fold_true :
    ∀ L : List (ℚ × FBase),
      L.foldl (fun acc qb => addFourierTerm acc qb.1 (baseString qb.2 "u")) ("", true) =
        (match L.filterMap fun qb => mkFTerm qb.1 qb.2 with
         | [] => ("", true)
         | t :: rest =>
             ((if t.neg then "-" else "") ++ termTail t "u" ++ renderTermsTail rest "u",
              false)) := by
  intro L
  induction L with
  | nil => rfl
  | cons qb rest ih =>
    rw [List.foldl_cons]
    by_cases hq : |qb.1| < 1 / 10000
    · simp only [addTerm_skip _ _ _ hq, ih, List.filterMap_cons, mkFTerm_skip _ _ hq]
    · rw [addTerm_keep_true _ _ hq, addTerm_fold_false rest _, List.filterMap_cons,
        mkFTerm_keep _ _ hq]
      simp only [termTail_of_mk]
      have hsep : (if (⟨decide (qb.1 < 0), round4 |qb.1|, qb.2⟩ : FTerm).neg
          then "-" else "") = (if qb.1 < 0 then "-" else "") := by
        by_cases hn : qb.1 < 0 <;> simp [hn]
      rw [hsep]

theorem buildFourierEquation_eq_render (c : FourierCoeffs ℚ) :
    buildFourierEquation c "u" = renderTerms (fourierTerms c) "u" := by
  unfold buildFourierEquation fourierTerms renderTerms
  have hfold : (List.range' 1 c.K).foldl
      (fun acc k =>
        addFourierTerm
          (addFourierTerm acc (c.a k) ("cos(" ++ natToString k ++ "*" ++ "u" ++ ")"))
          (c.b k) ("sin(" ++ natToString k ++ "*" ++ "u" ++ ")"))
      (addFourierTerm ("", true) (c.a0 / 2) "") =
      (termInputs c).foldl
        (fun acc qb => addFourierTerm acc qb.1 (baseString qb.2 "u")) ("", true) := by
    unfold termInputs
    rw [List.foldl_cons, foldl_flatMap]
    rfl
  simp only []
  rw [hfold, addTerm_fold_true]
  cases hft : (termInputs c).filterMap fun qb => mkFTerm qb.1 qb.2 with
  | nil => rfl
  | cons t rest => rfl

/-! ## Parsing a rendered expression recovers the term list (claim C9) -/

theorem nat_split_div (m : ℕ) :
    ((m / 10000 : ℕ) : ℚ) + ((m % 10000 : ℕ) : ℚ) / 10 ^ 4 = (m : ℚ) / 10000 := by
  have hm : m / 10000 * 10000 + m % 10000 = m := by omega
  have key : ((m / 10000 : ℕ) : ℚ) * 10000 + ((m % 10000 : ℕ) : ℚ) = (m : ℚ) := by
    exact_mod_cast congrArg (fun x : ℕ => (x : ℚ)) hm
  have h4 : (10 : ℚ) ^ 4 = 10000 := by norm_num
  rw [h4]
  field_simp
  linarith [key]

theorem renderTermsTail_shape (ts : List FTerm) :
    (renderTermsTail ts "u").data = [] ∨ ∃ x, (renderTermsTail ts "u").data = ' ' :: x := by
  cases ts with
  | nil => exact Or.inl rfl
  | cons t rest =>
    right
    rw [renderTermsTail]
    by_cases hn : t.neg <;>
      simp [hn, String.data_append]

theorem space_not_digit : (' ').isDigit = false := rfl

theorem star_not_digit : ('*').isDigit = false := rfl

theorem baseString_cos_ne_empty (k : ℕ) : baseString (FBase.cosk k) "u" ≠ "" := by
  intro h
  have hd := congrArg String.data h
  simp [baseString, String.data_append] at hd

theorem baseString_sin_ne_empty (k : ℕ) : baseString (FBase.sink k) "u" ≠ "" := by
  intro h
  have hd := congrArg String.data h
  simp [baseString, String.data_append] at hd

theorem head_not_digit_cons (c0 : Char) (h0 : c0.isDigit = false) (X : List Char) :
    ∀ c, (c0 :: X).head? = some c → c.isDigit = false := by
  intro c hc
  simp only [List.head?_cons, Option.some.injEq] at hc
  subst hc
  exact h0

theorem parse_termTail (t : FTerm) (m : ℕ) (hm : t.mag = (m : ℚ) / 10000)
    (r : List Char) (hr : r = [] ∨ ∃ x, r = ' ' :: x) :
    ∃ mid, parseFixed ((termTail t "u").data ++ r) = some (t.mag, mid) ∧
      parseBase "u" mid = some (t.base, r) := by
  have hrd : ∀ c, r.head? = some c → c.isDigit = false := by
    rcases hr with rfl | ⟨x, rfl⟩
    · intro c hc; exact absurd hc (by simp)
    · exact head_not_digit_cons ' ' rfl x
  have hb : m % 10000 < 10000 := by omega
  have hval : ((m / 10000 : ℕ) : ℚ) + ((m % 10000 : ℕ) : ℚ) / 10 ^ 4 = t.mag := by
    rw [nat_split_div, hm]
  cases hbase : t.base with
  | const =>
    refine ⟨r, ?_, ?_⟩
    · have hdata : (termTail t "u").data ++ r =
          natDigits (m / 10000) ++ '.' :: (pad4 (m % 10000) ++ r) := by
        unfold termTail
        rw [hbase, show baseString FBase.const "u" = "" from rfl, if_pos rfl, hm,
          String.data_append, toFixed4_data]
        simp [List.append_assoc]
      rw [hdata, parseFixed_spec _ _ hb r hrd, hval]
    · exact parseBase_const r hr
  | cosk k =>
    have hstar : ∀ c, ("*cos(".data ++ natDigits k ++ '*' :: 'u' :: ')' :: r).head? =
        some c → c.isDigit = false := by
      rw [show ("*cos(".data ++ natDigits k ++ '*' :: 'u' :: ')' :: r) =
        '*' :: ("cos(".data ++ natDigits k ++ '*' :: 'u' :: ')' :: r) from rfl]
      exact head_not_digit_cons '*' rfl _
    refine ⟨"*cos(".data ++ natDigits k ++ '*' :: 'u' :: ')' :: r, ?_, ?_⟩
    · have hdata : (termTail t "u").data ++ r =
          natDigits (m / 10000) ++ '.' :: (pad4 (m % 10000) ++
            ("*cos(".data ++ natDigits k ++ '*' :: 'u' :: ')' :: r)) := by
        unfold termTail
        rw [hbase, if_neg (baseString_cos_ne_empty k), hm, String.data_append,
          toFixed4_data, String.data_append]
        simp [baseString, natToString, String.data_append, List.append_assoc]
      rw [hdata, parseFixed_spec _ _ hb _ hstar, hval]
    · exact parseBase_cos k r
  | sink k =>
    have hstar : ∀ c, ("*sin(".data ++ natDigits k ++ '*' :: 'u' :: ')' :: r).head? =
        some c → c.isDigit = false := by
      rw [show ("*sin(".data ++ natDigits k ++ '*' :: 'u' :: ')' :: r) =
        '*' :: ("sin(".data ++ natDigits k ++ '*' :: 'u' :: ')' :: r) from rfl]
      exact head_not_digit_cons '*' rfl _
    refine ⟨"*sin(".data ++ natDigits k ++ '*' :: 'u' :: ')' :: r, ?_, ?_⟩
    · have hdata : (termTail t "u").data ++ r =
          natDigits (m / 10000) ++ '.' :: (pad4 (m % 10000) ++
            ("*sin(".data ++ natDigits k ++ '*' :: 'u' :: ')' :: r)) := by
        unfold termTail
        rw [hbase, if_neg (baseString_sin_ne_empty k), hm, String.data_append,
          toFixed4_data, String.data_append]
        simp [baseString, natToString, String.data_append, List.append_assoc]
      rw [hdata, parseFixed_spec _ _ hb _ hstar, hval]
    · exact parseBase_sin k r

theorem termTail_head (t : FTerm) (m : ℕ) (hm : t.mag = (m : ℚ) / 10000) (Y : List Char) :
    ∃ c0, ((termTail t "u").data ++ Y).head? = some c0 ∧ c0.isDigit = true := by
  obtain ⟨c0, cs0, hc0⟩ := List.exists_cons_of_ne_nil (natDigits_ne_nil (m / 10000))
  refine ⟨c0, ?_, natDigits_digit _ c0 (by rw [hc0]; exact List.mem_cons_self _ _)⟩
  unfold termTail
  rw [String.data_append, hm, toFixed4_data, hc0]
  rfl

theorem termTail_len3 (t : FTerm) (m : ℕ) (hm : t.mag = (m : ℚ) / 10000) :
    3 ≤ (termTail t "u").data.length := by
  unfold termTail
  rw [String.data_append, hm, toFixed4_data]
  simp only [List.length_append, List.length_cons]
  have h1 := List.length_pos.mpr (natDigits_ne_nil (m / 10000))
  have h2 := List.length_pos.mpr (pad4_ne_nil (m % 10000))
  omega

theorem parseFirstSign_no_dash (X : List Char) (c0 : Char) (h : X.head? = some c0)
    (hc : c0.isDigit = true) : parseFirstSign X = (false, X) := by
  have hnd : ¬(X.head? = some '-') := by
    rw [h]
    intro hcontra
    injection hcontra with h2
    rw [h2] at hc
    exact absurd hc (by decide)
  unfold parseFirstSign
  rw [if_neg hnd]

theorem parseTermsTail_render :
    ∀ (ts : List FTerm) (fuel : ℕ),
      (renderTermsTail ts "u").data.length ≤ fuel →
      (∀ t ∈ ts, ∃ m : ℕ, t.mag = (m : ℚ) / 10000) →
      parseTermsTail "u" fuel (renderTermsTail ts "u").data = some ts := by
  intro ts
  induction ts with
  | nil =>
    intro fuel _ _
    cases fuel <;> rfl
  | cons t rest ih =>
    intro fuel hfuel hwf
    obtain ⟨m, hm⟩ := hwf t (List.mem_cons_self t rest)
    obtain ⟨mid, hpf, hpb⟩ := parse_termTail t m hm (renderTermsTail rest "u").data
      (renderTermsTail_shape rest)
    have hdata : (renderTermsTail (t :: rest) "u").data =
        (if t.neg then " - " else " + ").data ++
          ((termTail t "u").data ++ (renderTermsTail rest "u").data) := by
      rw [renderTermsTail, String.data_append, String.data_append, List.append_assoc]
    have h3 : (if t.neg then " - " else " + ").data.length = 3 := by
      by_cases hn : t.neg <;> simp [hn]
    have hlenf : (renderTermsTail rest "u").data.length + 1 ≤ fuel := by
      rw [hdata] at hfuel
      simp only [List.length_append] at hfuel
      omega
    obtain ⟨f, rfl⟩ : ∃ f, fuel = f + 1 := ⟨fuel - 1, by omega⟩
    have hih := ih f (by omega) fun x hx => hwf x (List.mem_cons_of_mem _ hx)
    rw [hdata]
    obtain ⟨tn, tm, tb⟩ := t
    by_cases hn : tn
    · subst hn
      rw [show ((if (⟨true, tm, tb⟩ : FTerm).neg then " - " else " + ") : String).data =
        ' ' :: '-' :: ' ' :: [] from rfl]
      rw [show (' ' :: '-' :: ' ' :: []) ++
          ((termTail ⟨true, tm, tb⟩ "u").data ++ (renderTermsTail rest "u").data) =
          ' ' :: '-' :: ' ' ::
            ((termTail ⟨true, tm, tb⟩ "u").data ++ (renderTermsTail rest "u").data) from rfl]
      simp only [parseTermsTail, parseSep_minus, hpf, hpb, hih]
    · have hn2 : tn = false := by revert hn; cases tn <;> simp
      subst hn2
      rw [show ((if (⟨false, tm, tb⟩ : FTerm).neg then " - " else " + ") : String).data =
        ' ' :: '+' :: ' ' :: [] from rfl]
      rw [show (' ' :: '+' :: ' ' :: []) ++
          ((termTail ⟨false, tm, tb⟩ "u").data ++ (renderTermsTail rest "u").data) =
          ' ' :: '+' :: ' ' ::
            ((termTail ⟨false, tm, tb⟩ "u").data ++ (renderTermsTail rest "u").data) from rfl]
      simp only [parseTermsTail, parseSep_plus, hpf, hpb, hih]

theorem parseFourierExpr_render (l : List FTerm)
    (hwf : ∀ t ∈ l, ∃ m : ℕ, t.mag = (m : ℚ) / 10000) :
    parseFourierExpr "u" (renderTerms l "u") = some l := by
  cases l with
  | nil => rfl
  | cons t rest =>
    obtain ⟨m, hm⟩ := hwf t (List.mem_cons_self t rest)
    obtain ⟨mid, hpf, hpb⟩ := parse_termTail t m hm (renderTermsTail rest "u").data
      (renderTermsTail_shape rest)
    have hih : parseTermsTail "u" (renderTermsTail rest "u").data.length
        (renderTermsTail rest "u").data = some rest :=
      parseTermsTail_render rest _ (le_refl _) fun x hx => hwf x (List.mem_cons_of_mem _ hx)
    have hdata : (renderTerms (t :: rest) "u").data =
        (if t.neg then "-" else "").data ++
          ((termTail t "u").data ++ (renderTermsTail rest "u").data) := by
      rw [renderTerms, String.data_append, String.data_append, List.append_assoc]
    have htt3 := termTail_len3 t m hm
    have hne : renderTerms (t :: rest) "u" ≠ "0" := by
      intro h
      have hd := congrArg (fun s : String => s.data.length) h
      simp only at hd
      rw [hdata] at hd
      simp only [List.length_append] at hd
      rw [show ("0" : String).data.length = 1 from rfl] at hd
      omega
    unfold parseFourierExpr
    rw [if_neg hne, hdata]
    obtain ⟨tn, tm, tb⟩ := t
    by_cases hn : tn
    · subst hn
      rw [show ((if (⟨true, tm, tb⟩ : FTerm).neg then "-" else "") : String).data =
        '-' :: [] from rfl]
      rw [show ('-' :: []) ++
          ((termTail ⟨true, tm, tb⟩ "u").data ++ (renderTermsTail rest "u").data) =
          '-' :: ((termTail ⟨true, tm, tb⟩ "u").data ++ (renderTermsTail rest "u").data)
          from rfl]
      have hsign : parseFirstSign
          ('-' :: ((termTail ⟨true, tm, tb⟩ "u").data ++ (renderTermsTail rest "u").data)) =
          (true, (termTail ⟨true, tm, tb⟩ "u").data ++ (renderTermsTail rest "u").data) := by
        unfold parseFirstSign
        rw [if_pos (show ('-' :: ((termTail ⟨true, tm, tb⟩ "u").data ++
          (renderTermsTail rest "u").data)).head? = some '-' from rfl)]
        rfl
      simp only [hsign, hpf, hpb, hih]
    · have hn2 : tn = false := by revert hn; cases tn <;> simp
      subst hn2
      rw [show ((if (⟨false, tm, tb⟩ : FTerm).neg then "-" else "") : String).data =
        ([] : List Char) from rfl]
      rw [List.nil_append]
      obtain ⟨c0, hc0, hc0d⟩ :=
        termTail_head ⟨false, tm, tb⟩ m hm (renderTermsTail rest "u").data
      have hsign := parseFirstSign_no_dash _ c0 hc0 hc0d
      simp only [hsign, hpf, hpb, hih]

/-! ## The recompiled value against the exact series (claim C9) -/

theorem sum_flatMap {M γ : Type} [AddCommMonoid M] (g : γ → List M) :
    ∀ l : List γ, (l.flatMap g).sum = (l.map fun a => (g a).sum).sum := by
  intro l
  induction l with
  | nil => rfl
  | cons a l ih =>
    rw [List.flatMap_cons, List.sum_append, List.map_cons, List.sum_cons, ih]

theorem sum_range'_one {M : Type} [AddCommMonoid M] (h : ℕ → M) :
    ∀ K : ℕ, ((List.range' 1 K).map h).sum = ∑ k ∈ Finset.Icc 1 K, h k := by
  intro K
  induction K with
  | zero => simp
  | succ K ih =>
    rw [List.range'_concat, List.map_append, List.sum_append, ih,
      Finset.sum_Icc_succ_top (by omega : 1 ≤ K + 1)]
    simp [Nat.add_comm]

theorem fourierTerms_wf (c : FourierCoeffs ℚ) :
    ∀ t ∈ fourierTerms c, ∃ m : ℕ, t.mag = (m : ℚ) / 10000 := by
  intro t ht
  unfold fourierTerms at ht
  obtain ⟨qb, -, hmk⟩ := List.mem_filterMap.1 ht
  by_cases hq : |qb.1| < 1 / 10000
  · rw [mkFTerm_skip _ _ hq] at hmk
    exact absurd hmk (by simp)
  · rw [mkFTerm_keep _ _ hq] at hmk
    obtain rfl : (⟨decide (qb.1 < 0), round4 |qb.1|, qb.2⟩ : FTerm) = t := by
      simpa using hmk
    exact round4_nonneg_form |qb.1| (abs_nonneg _)

theorem fourierSeriesEval_eq_inputs (cosF sinF : ℝ → ℝ) (c : FourierCoeffs ℚ) (t : ℝ) :
    fourierSeriesEval cosF sinF (ratCoeffs c) t =
      ((termInputs c).map fun qb => (qb.1 : ℝ) * baseVal cosF sinF qb.2 t).sum := by
  rw [fourierSeriesEval_char]
  unfold termInputs
  rw [List.map_cons, List.sum_cons]
  have hK : (ratCoeffs c).K = c.K := rfl
  congr 1
  · show (ratCoeffs c).a0 / 2 = ((c.a0 / 2 : ℚ) : ℝ) * baseVal cosF sinF FBase.const t
    unfold ratCoeffs baseVal
    push_cast
    ring
  · rw [List.map_flatMap, sum_flatMap, sum_range'_one, hK]
    refine Finset.sum_congr rfl fun k _ => ?_
    simp only [List.map_cons, List.map_nil, List.sum_cons, List.sum_nil, add_zero]
    unfold ratCoeffs baseVal
    rfl

theorem baseVal_le_one (cosF sinF : ℝ → ℝ) (hc : ∀ x, |cosF x| ≤ 1)
    (hs : ∀ x, |sinF x| ≤ 1) (b : FBase) (t : ℝ) : |baseVal cosF sinF b t| ≤ 1 := by
  cases b with
  | const => simp [baseVal]
  | cosk k => exact hc _
  | sink k => exact hs _

theorem signed_round4_close (q : ℚ) :
    |(if decide (q < 0) then (-1 : ℝ) else 1) * ((round4 |q| : ℚ) : ℝ) - (q : ℝ)| ≤
      1 / 20000 := by
  have hr := round4_close |q|
  have h2 : ((abs (round4 (abs q) - abs q) : ℚ) : ℝ) ≤ ((1 / 20000 : ℚ) : ℝ) := Rat.cast_le.2 hr
  push_cast at h2
  by_cases hqs : q < 0
  · rw [if_pos (by simpa using hqs)]
    have hq3 : (-1 : ℝ) * ((round4 |q| : ℚ) : ℝ) - (q : ℝ) =
        -(((round4 |q| : ℚ) : ℝ) - |(q : ℝ)|) := by
      have hq4 : (q : ℝ) < 0 := by exact_mod_cast hqs
      rw [abs_of_neg hq4]
      ring
    rw [hq3, abs_neg]
    exact h2
  · rw [if_neg (by simpa using hqs)]
    have hq3 : (1 : ℝ) * ((round4 |q| : ℚ) : ℝ) - (q : ℝ) =
        ((round4 |q| : ℚ) : ℝ) - |(q : ℝ)| := by
      have hq4 : (0 : ℝ) ≤ (q : ℝ) := by exact_mod_cast not_lt.1 hqs
      rw [abs_of_nonneg hq4]
      ring
    rw [hq3]
    exact h2

theorem evalTerms_close (cosF sinF : ℝ → ℝ) (hc : ∀ x, |cosF x| ≤ 1)
    (hs : ∀ x, |sinF x| ≤ 1) (t : ℝ) :
    ∀ L : List (ℚ × FBase),
      |evalTerms cosF sinF (L.filterMap fun qb => mkFTerm qb.1 qb.2) t -
        ((L.map fun qb => (qb.1 : ℝ) * baseVal cosF sinF qb.2 t).sum)| ≤
        L.length * (1 / 10000) := by
  intro L
  induction L with
  | nil => simp [evalTerms]
  | cons qb rest ih =>
    rw [List.filterMap_cons, List.map_cons, List.sum_cons, List.length_cons]
    have hbase := baseVal_le_one cosF sinF hc hs qb.2 t
    by_cases hq : |qb.1| < 1 / 10000
    · rw [mkFTerm_skip _ _ hq]
      have hx : |(qb.1 : ℝ) * baseVal cosF sinF qb.2 t| ≤ 1 / 10000 := by
        rw [abs_mul]
        have h1 : |(qb.1 : ℝ)| ≤ 1 / 10000 := by
          have h2 : ((|qb.1| : ℚ) : ℝ) ≤ ((1 / 10000 : ℚ) : ℝ) := Rat.cast_le.2 (le_of_lt hq)
          push_cast at h2
          exact h2
        calc |(qb.1 : ℝ)| * |baseVal cosF sinF qb.2 t| ≤ (1 / 10000) * 1 :=
              mul_le_mul h1 hbase (abs_nonneg _) (by norm_num)
        _ = 1 / 10000 := by ring
      have hdecomp : evalTerms cosF sinF
            (List.filterMap (fun qb => mkFTerm qb.1 qb.2) rest) t -
            ((qb.1 : ℝ) * baseVal cosF sinF qb.2 t +
              ((rest.map fun qb => (qb.1 : ℝ) * baseVal cosF sinF qb.2 t).sum)) =
          (evalTerms cosF sinF (List.filterMap (fun qb => mkFTerm qb.1 qb.2) rest) t -
            ((rest.map fun qb => (qb.1 : ℝ) * baseVal cosF sinF qb.2 t).sum)) +
            (-((qb.1 : ℝ) * baseVal cosF sinF qb.2 t)) := by ring
      rw [hdecomp]
      calc |_ + _| ≤ _ + |(-((qb.1 : ℝ) * baseVal cosF sinF qb.2 t))| := abs_add _ _
      _ ≤ (rest.length : ℝ) * (1 / 10000) + 1 / 10000 := by
            rw [abs_neg]
            exact add_le_add ih hx
      _ = ((rest.length + 1 : ℕ) : ℝ) * (1 / 10000) := by push_cast; ring
    · rw [mkFTerm_keep _ _ hq]
      have hdec : evalTerms cosF sinF
            ((⟨decide (qb.1 < 0), round4 |qb.1|, qb.2⟩ : FTerm) ::
              List.filterMap (fun qb => mkFTerm qb.1 qb.2) rest) t =
          (if decide (qb.1 < 0) then (-1 : ℝ) else 1) * ((round4 |qb.1| : ℚ) : ℝ) *
              baseVal cosF sinF qb.2 t +
            evalTerms cosF sinF (List.filterMap (fun qb => mkFTerm qb.1 qb.2) rest) t := by
        unfold evalTerms
        rw [List.map_cons, List.sum_cons]
      rw [hdec]
      have hterm : |(if decide (qb.1 < 0) then (-1 : ℝ) else 1) *
            ((round4 |qb.1| : ℚ) : ℝ) * baseVal cosF sinF qb.2 t -
            (qb.1 : ℝ) * baseVal cosF sinF qb.2 t| ≤ 1 / 10000 := by
        have hfac : (if decide (qb.1 < 0) then (-1 : ℝ) else 1) *
              ((round4 |qb.1| : ℚ) : ℝ) * baseVal cosF sinF qb.2 t -
              (qb.1 : ℝ) * baseVal cosF sinF qb.2 t =
            ((if decide (qb.1 < 0) then (-1 : ℝ) else 1) * ((round4 |qb.1| : ℚ) : ℝ) -
              (qb.1 : ℝ)) * baseVal cosF sinF qb.2 t := by ring
        rw [hfac, abs_mul]
        calc |(if decide (qb.1 < 0) then (-1 : ℝ) else 1) * ((round4 |qb.1| : ℚ) : ℝ) -
              (qb.1 : ℝ)| * |baseVal cosF sinF qb.2 t| ≤ (1 / 20000) * 1 :=
              mul_le_mul (signed_round4_close qb.1) hbase (abs_nonneg _) (by norm_num)
        _ ≤ 1 / 10000 := by norm_num
      have hdecomp : (if decide (qb.1 < 0) then (-1 : ℝ) else 1) *
            ((round4 |qb.1| : ℚ) : ℝ) * baseVal cosF sinF qb.2 t +
            evalTerms cosF sinF (List.filterMap (fun qb => mkFTerm qb.1 qb.2) rest) t -
            ((qb.1 : ℝ) * baseVal cosF sinF qb.2 t +
              ((rest.map fun qb => (qb.1 : ℝ) * baseVal cosF sinF qb.2 t).sum)) =
          (evalTerms cosF sinF (List.filterMap (fun qb => mkFTerm qb.1 qb.2) rest) t -
            ((rest.map fun qb => (qb.1 : ℝ) * baseVal cosF sinF qb.2 t).sum)) +
            ((if decide (qb.1 < 0) then (-1 : ℝ) else 1) * ((round4 |qb.1| : ℚ) : ℝ) *
              baseVal cosF sinF qb.2 t - (qb.1 : ℝ) * baseVal cosF sinF qb.2 t) := by
        ring
      rw [hdecomp]
      calc |_ + _| ≤ _ + _ := abs_add _ _
      _ ≤ (rest.length : ℝ) * (1 / 10000) + 1 / 10000 := add_le_add ih hterm
      _ = ((rest.length + 1 : ℕ) : ℝ) * (1 / 10000) := by push_cast; ring

theorem termInputs_length (c : FourierCoeffs ℚ) : (termInputs c).length = 2 * c.K + 1 := by
  unfold termInputs
  rw [List.length_cons, List.length_flatMap]
  have hmap : List.map
      (List.length ∘ fun k => [(c.a k, FBase.cosk k), (c.b k, FBase.sink k)])
      (List.range' 1 c.K) = List.map (fun _ => 2) (List.range' 1 c.K) := rfl
  rw [hmap]
  have hsum : ∀ l : List ℕ, (l.map fun _ => (2 : ℕ)).sum = 2 * l.length := by
    intro l
    induction l with
    | nil => rfl
    | cons a l ih =>
      rw [List.map_cons, List.sum_cons, ih, List.length_cons]
      ring
  rw [hsum, List.length_range']

/-- C9 (amended): for every coefficient set, `buildFourierEquation` renders
exactly the terms of magnitude at least 1e-4 (signs placed, magnitudes
formatted to 4 decimals, the constant term bare, the empty case the literal
"0"), the rendered string recompiles, and the recompiled function evaluates at
every t to within (2K+1)*1e-4 of `fourierSeriesEval` — the spec's uniform 1e-3
tolerance is refuted by `fourier_roundtrip_tolerance_cex`. -/
theorem fourier_expression_roundtrip (cosF sinF : ℝ → ℝ)
    (hc : ∀ x, |cosF x| ≤ 1) (hs : ∀ x, |sinF x| ≤ 1)
    (c : FourierCoeffs ℚ) (t : ℝ) :
    buildFourierEquation c "u" = renderTerms (fourierTerms c) "u" ∧
    (fourierTerms c = [] → buildFourierEquation c "u" = "0") ∧
    ∃ y, jsEvalFourier cosF sinF "u" (buildFourierEquation c "u") t = some y ∧
      |y - fourierSeriesEval cosF sinF (ratCoeffs c) t| ≤
        ((2 * c.K + 1 : ℕ) : ℝ) * (1 / 10000) := by
  refine ⟨buildFourierEquation_eq_render c, ?_, ?_⟩
  · intro hnil
    rw [buildFourierEquation_eq_render, hnil]
    rfl
  · refine ⟨evalTerms cosF sinF (fourierTerms c) t, ?_, ?_⟩
    · rw [buildFourierEquation_eq_render]
      unfold jsEvalFourier
      rw [parseFourierExpr_render (fourierTerms c) (fourierTerms_wf c)]
      rfl
    · rw [fourierSeriesEval_eq_inputs, ← termInputs_length c]
      exact evalTerms_close cosF sinF hc hs t (termInputs c)

theorem fourier_expression_roundtrip_witness :
    (∀ x : ℝ, |(fun _ : ℝ => (0 : ℝ)) x| ≤ 1) ∧
      (buildFourierEquation cexCoeffs "u" = renderTerms (fourierTerms cexCoeffs) "u" ∧
       (fourierTerms cexCoeffs = [] → buildFourierEquation cexCoeffs "u" = "0") ∧
       ∃ y, jsEvalFourier (fun _ : ℝ => 0) (fun _ : ℝ => 0) "u"
           (buildFourierEquation cexCoeffs "u") 0 = some y ∧
         |y - fourierSeriesEval (fun _ : ℝ => 0) (fun _ : ℝ => 0) (ratCoeffs cexCoeffs) 0| ≤
           ((2 * cexCoeffs.K + 1 : ℕ) : ℝ) * (1 / 10000)) :=
  have h0 : ∀ x : ℝ, |(fun _ : ℝ => (0 : ℝ)) x| ≤ 1 := fun _ => by norm_num
  ⟨h0, fourier_expression_roundtrip (fun _ : ℝ => 0) (fun _ : ℝ => 0) h0 h0 cexCoeffs 0⟩

/-- C9 counterexample: with sixty cosine coefficients of 0.00009 each, every
term falls below the 1e-4 omission threshold, so the rendered expression is the
literal "0" and evaluates to 0 — yet the exact series at t = 0 sums to
60 * 0.00009 = 0.0054, which exceeds the spec's claimed 1e-3 tolerance. -/
theorem fourier_roundtrip_tolerance_cex :
    buildFourierEquation cexCoeffs "u" = "0" ∧
    jsEvalFourier Real.cos Real.sin "u" (buildFourierEquation cexCoeffs "u") 0 = some 0 ∧
    ¬ |(0 : ℝ) - fourierSeriesEval Real.cos Real.sin (ratCoeffs cexCoeffs) 0| ≤ 1 / 1000 := by
  have hnil : fourierTerms cexCoeffs = [] := by
    unfold fourierTerms
    rw [List.filterMap_eq_nil_iff]
    intro p hp
    unfold termInputs at hp
    rcases List.mem_cons.1 hp with h | h
    · rw [h]
      exact mkFTerm_skip _ _ (by norm_num [cexCoeffs])
    · obtain ⟨k, -, hmem⟩ := List.mem_flatMap.1 h
      simp only [List.mem_cons, List.not_mem_nil, or_false] at hmem
      rcases hmem with rfl | rfl
      · refine mkFTerm_skip _ _ ?_
        show |cexCoeffs.a k| < 1 / 10000
        rw [show cexCoeffs.a k = if 1 ≤ k ∧ k ≤ 60 then 9 / 100000 else 0 from rfl]
        split
        · rw [abs_of_pos (by norm_num : (0 : ℚ) < 9 / 100000)]
          norm_num
        · norm_num
      · exact mkFTerm_skip _ _ (by norm_num [cexCoeffs])
  have hbuild : buildFourierEquation cexCoeffs "u" = "0" := by
    rw [buildFourierEquation_eq_render, hnil]
    rfl
  have hval : fourierSeriesEval Real.cos Real.sin (ratCoeffs cexCoeffs) 0 = 27 / 5000 := by
    rw [fourierSeriesEval_char]
    have hsum : ∀ k ∈ Finset.Icc 1 (ratCoeffs cexCoeffs).K,
        (ratCoeffs cexCoeffs).a k * Real.cos ((k : ℝ) * 0) +
          (ratCoeffs cexCoeffs).b k * Real.sin ((k : ℝ) * 0) = 9 / 100000 := by
      intro k hk
      rw [show (ratCoeffs cexCoeffs).K = 60 from rfl, Finset.mem_Icc] at hk
      have ha : (ratCoeffs cexCoeffs).a k = ((9 / 100000 : ℚ) : ℝ) := by
        show ((cexCoeffs.a k : ℚ) : ℝ) = _
        rw [show cexCoeffs.a k = if 1 ≤ k ∧ k ≤ 60 then 9 / 100000 else 0 from rfl,
          if_pos hk]
      have hb : (ratCoeffs cexCoeffs).b k = ((0 : ℚ) : ℝ) := rfl
      rw [ha, hb, mul_zero, Real.cos_zero, Real.sin_zero]
      push_cast
      ring
    rw [Finset.sum_congr rfl hsum, Finset.sum_const,
      show (ratCoeffs cexCoeffs).K = 60 from rfl, Nat.card_Icc,
      show (ratCoeffs cexCoeffs).a0 = ((0 : ℚ) : ℝ) from rfl]
    norm_num
  refine ⟨hbuild, ?_, ?_⟩
  · rw [hbuild]
    rfl
  · rw [hval, zero_sub, abs_neg, abs_of_pos (by norm_num : (0 : ℝ) < 27 / 5000)]
    norm_num

/-! ## Chunk analysis of the preprocessing pipeline (claim C5) -/

theorem wfChunks_chunksOf : ∀ l : List Char, wfChunks (chunksOf l) = true := by
  intro l
  induction l with
  | nil => rfl
  | cons c cs ih =>
    by_cases hc : isTokChar c
    · rcases h : chunksOf cs with - | ⟨k, rest⟩
      · simp [chunksOf, hc, h, wfChunks, headSepChunk]
      · cases k with
        | run r =>
          rw [h] at ih
          simp only [chunksOf, hc, if_true, h]
          simp only [wfChunks, Bool.and_eq_true] at ih ⊢
          obtain ⟨⟨⟨hne, hall⟩, hsep⟩, hwf⟩ := ih
          refine ⟨⟨⟨by simp, ?_⟩, hsep⟩, hwf⟩
          rw [List.all_cons, hc, hall]
          rfl
        | sep d =>
          rw [h] at ih
          simp only [chunksOf, hc, if_true, h]
          simp only [wfChunks, headSepChunk, Bool.and_eq_true, Bool.not_eq_true'] at ih
          simp [wfChunks, headSepChunk, hc, ih.1, ih.2]
    · simp only [chunksOf, hc, if_false, wfChunks, Bool.and_eq_true, Bool.not_eq_true']
      exact ⟨by simpa using hc, ih⟩

theorem flattenChunks_chunksOf : ∀ l : List Char, flattenChunks (chunksOf l) = l := by
  intro l
  induction l with
  | nil => rfl
  | cons c cs ih =>
    by_cases hc : isTokChar c
    · rcases h : chunksOf cs with - | ⟨k, rest⟩
      · rw [h] at ih
        simp only [flattenChunks, List.flatMap_nil] at ih
        simp [chunksOf, hc, h, flattenChunks, ← ih]
      · cases k with
        | run r =>
          rw [h] at ih
          simp only [flattenChunks, List.flatMap_cons] at ih
          simp only [chunksOf, hc, if_true, h, flattenChunks, List.flatMap_cons]
          rw [List.cons_append, ih]
        | sep d =>
          rw [h] at ih
          simp only [flattenChunks, List.flatMap_cons] at ih
          simp only [chunksOf, hc, if_true, h, flattenChunks, List.flatMap_cons]
          simp only [List.singleton_append] at ih ⊢
          rw [ih]
    · have hc2 : isTokChar c = false := by simpa using hc
      simp only [flattenChunks] at ih
      simp only [chunksOf, hc2, Bool.false_eq_true, if_false, flattenChunks,
        List.flatMap_cons, List.singleton_append]
      rw [ih]

theorem chunksOf_run_prepend : ∀ (r t : List Char), r ≠ [] →
    (∀ c ∈ r, isTokChar c = true) →
    (∀ d, t.head? = some d → isTokChar d = false) →
    chunksOf (r ++ t) = Chunk.run r :: chunksOf t := by
  intro r
  induction r with
  | nil => intro t h; exact absurd rfl h
  | cons c r' ih =>
    intro t _ hall hhead
    have hc : isTokChar c = true := hall c (List.mem_cons_self c r')
    cases r' with
    | nil =>
      rcases t with - | ⟨d, ds⟩
      · simp [chunksOf, hc]
      · have hd : isTokChar d = false := hhead d rfl
        show chunksOf (c :: d :: ds) = _
        simp [chunksOf, hc, hd]
    | cons c2 r'' =>
      have h2 : chunksOf (c2 :: r'' ++ t) = .run (c2 :: r'') :: chunksOf t :=
        ih t (by simp) (fun x hx => hall x (List.mem_cons_of_mem _ hx)) hhead
      show chunksOf (c :: (c2 :: r'' ++ t)) = _
      rw [show chunksOf (c :: (c2 :: r'' ++ t)) =
          if isTokChar c then
            match chunksOf (c2 :: r'' ++ t) with
            | Chunk.run r :: rest => Chunk.run (c :: r) :: rest
            | rest => Chunk.run [c] :: rest
          else Chunk.sep c :: chunksOf (c2 :: r'' ++ t) from rfl, h2, hc]
      rfl

theorem chunksOf_flattenChunks : ∀ ch : List Chunk, wfChunks ch = true →
    chunksOf (flattenChunks ch) = ch := by
  intro ch
  induction ch with
  | nil => intro; rfl
  | cons k ch' ih =>
    intro hwf
    cases k with
    | sep c =>
      simp only [wfChunks, Bool.and_eq_true, Bool.not_eq_true'] at hwf
      simp only [flattenChunks, List.flatMap_cons, List.singleton_append]
      simp only [chunksOf, hwf.1, Bool.false_eq_true, if_false]
      simp only [flattenChunks] at ih
      rw [ih hwf.2]
    | run r =>
      simp only [wfChunks, Bool.and_eq_true, Bool.not_eq_true', List.all_eq_true] at hwf
      obtain ⟨⟨⟨hne, hall⟩, hsep⟩, hwf'⟩ := hwf
      simp only [flattenChunks, List.flatMap_cons]
      have hhead : ∀ d, (flattenChunks ch').head? = some d → isTokChar d = false := by
        intro d hd
        cases ch' with
        | nil => simp [flattenChunks] at hd
        | cons k2 ch'' =>
          cases k2 with
          | run r2 => simp [headSepChunk] at hsep
          | sep c2 =>
            simp only [wfChunks, Bool.and_eq_true, Bool.not_eq_true'] at hwf'
            simp only [flattenChunks, List.flatMap_cons, List.singleton_append,
              List.head?_cons, Option.some.injEq] at hd
            rw [← hd]
            exact hwf'.1
      have hrne : r ≠ [] := by
        intro hr
        rw [hr] at hne
        simp at hne
      simp only [flattenChunks] at hhead ih
      rw [chunksOf_run_prepend r _ hrne hall hhead, ih hwf']

theorem drop_append_le {γ : Type} : ∀ (n : ℕ) (l₁ l₂ : List γ), n ≤ l₁.length →
    (l₁ ++ l₂).drop n = l₁.drop n ++ l₂ := by
  intro n
  induction n with
  | zero => intro l₁ l₂ h; rfl
  | succ n ih =>
    intro l₁ l₂ h
    cases l₁ with
    | nil => simp at h
    | cons a l =>
      simp only [List.cons_append, List.drop_succ_cons]
      exact ih l l₂ (by simpa using h)

theorem mem_drop_mem {γ : Type} : ∀ (n : ℕ) (l : List γ) (a : γ), a ∈ l.drop n → a ∈ l := by
  intro n
  induction n with
  | zero => intro l a h; exact h
  | succ n ih =>
    intro l a h
    cases l with
    | nil => simp at h
    | cons b l =>
      rw [List.drop_succ_cons] at h
      exact List.mem_cons_of_mem b (ih l a h)

theorem isWordChar_isTokChar (c : Char) (h : isWordChar c = true) : isTokChar c = true := by
  simp [isTokChar, h]

theorem isTokChar_false_isWordChar (c : Char) (h : isTokChar c = false) :
    isWordChar c = false := by
  rw [isTokChar] at h
  rcases Bool.or_eq_false_iff.1 h with ⟨h1, -⟩
  exact Bool.or_eq_false_iff.1 h1 |>.1

theorem charMatch_sep (ci : Bool) (a b : Char) (ha : isTokChar a = false)
    (hb : isWordChar b = true) (hub : isWordChar (upperChar b) = true) :
    charMatch ci a b = false := by
  have h1 : (a == b) = false := by
    rw [Bool.eq_false_iff]
    intro habs
    rw [eq_of_beq habs, isWordChar_isTokChar b hb] at ha
    simp at ha
  have h2 : (a == upperChar b) = false := by
    rw [Bool.eq_false_iff]
    intro habs
    rw [eq_of_beq habs, isWordChar_isTokChar _ hub] at ha
    simp at ha
  rw [charMatch, h1, h2, Bool.and_false, Bool.or_false]

theorem matchesAt_nil (ci : Bool) (s : List Char) : matchesAt [] ci s = true := by
  simp [matchesAt]

theorem matchesAt_cons (t0 : Char) (tgt : List Char) (ci : Bool) (a : Char) (s : List Char) :
    matchesAt (t0 :: tgt) ci (a :: s) = (charMatch ci a t0 && matchesAt tgt ci s) := by
  cases h : charMatch ci a t0 <;>
    simp [matchesAt, h, Nat.succ_le_succ_iff, Bool.and_left_comm, Bool.and_comm,
      Bool.and_assoc]

theorem matchesAt_length {tgt : List Char} {ci : Bool} {s : List Char}
    (h : matchesAt tgt ci s = true) : tgt.length ≤ s.length := by
  rw [matchesAt, Bool.and_eq_true] at h
  exact of_decide_eq_true h.1

theorem matchesAt_append (tgt : List Char) (ci : Bool)
    (htgt : ∀ b ∈ tgt, isWordChar b = true ∧ isWordChar (upperChar b) = true) :
    ∀ (s₁ s₂ : List Char), (∀ d, s₂.head? = some d → isTokChar d = false) →
      matchesAt tgt ci (s₁ ++ s₂) = matchesAt tgt ci s₁ := by
  induction tgt with
  | nil => intro s₁ s₂ h; rw [matchesAt_nil, matchesAt_nil]
  | cons t0 tgt ih =>
    intro s₁ s₂ hhead
    cases s₁ with
    | nil =>
      rw [List.nil_append]
      cases s₂ with
      | nil => rfl
      | cons d ds =>
        have hd : isTokChar d = false := hhead d rfl
        have hcm : charMatch ci d t0 = false :=
          charMatch_sep ci d t0 hd (htgt t0 (List.mem_cons_self t0 tgt)).1
            (htgt t0 (List.mem_cons_self t0 tgt)).2
        rw [matchesAt_cons, hcm, Bool.false_and]
        simp [matchesAt]
    | cons a s =>
      rw [List.cons_append, matchesAt_cons, matchesAt_cons,
        ih (fun b hb => htgt b (List.mem_cons_of_mem t0 hb)) s s₂ hhead]

theorem boundaryAfter_append (tgt : List Char) (s₁ s₂ : List Char)
    (hle : tgt.length ≤ s₁.length)
    (hhead : ∀ d, s₂.head? = some d → isTokChar d = false) :
    boundaryAfter tgt (s₁ ++ s₂) = boundaryAfter tgt s₁ := by
  rw [boundaryAfter, boundaryAfter, drop_append_le tgt.length s₁ s₂ hle]
  rcases Nat.lt_or_ge tgt.length s₁.length with hlt | hge
  · have hne : s₁.drop tgt.length ≠ [] := by
      intro habs
      have := congrArg List.length habs
      simp only [List.length_drop, List.length_nil] at this
      omega
    cases hd : s₁.drop tgt.length with
    | nil => exact absurd hd hne
    | cons e es =>
      rw [List.cons_append]
      rfl
  · have hnil : s₁.drop tgt.length = [] := List.drop_eq_nil_of_le hge
    rw [hnil, List.nil_append]
    cases s₂ with
    | nil => rfl
    | cons d ds =>
      have hd : isTokChar d = false := hhead d rfl
      have hw : isWordChar d = false := isTokChar_false_isWordChar d hd
      simp [hw]

theorem replaceWordAll_nil (tgt rep : List Char) (ci p : Bool) :
    replaceWordAll tgt rep ci p [] = [] := by
  simp [replaceWordAll]

theorem replaceWordAll_head_step (tgt rep : List Char) (ci : Bool) (t0 : Char)
    (tgt2 : List Char) (htgt : tgt = t0 :: tgt2) (c : Char)
    (hcm : charMatch ci c t0 = false) (p : Bool) (cs : List Char) :
    replaceWordAll tgt rep ci p (c :: cs) =
      c :: replaceWordAll tgt rep ci (isWordChar c) cs := by
  subst htgt
  have hm : matchesAt (t0 :: tgt2) ci (c :: cs) = false := by
    rw [matchesAt_cons, hcm, Bool.false_and]
  simp [replaceWordAll, hm]

theorem replaceWordAll_sep_step (tgt rep : List Char) (ci : Bool)
    (htgt : ∀ b ∈ tgt, isWordChar b = true ∧ isWordChar (upperChar b) = true)
    (hne : tgt ≠ []) (d : Char) (hd : isTokChar d = false) (p : Bool) (ds : List Char) :
    replaceWordAll tgt rep ci p (d :: ds) = d :: replaceWordAll tgt rep ci false ds := by
  obtain ⟨t0, tgt2, rfl⟩ : ∃ t0 tgt2, tgt = t0 :: tgt2 := by
    cases tgt with
    | nil => exact absurd rfl hne
    | cons a b => exact ⟨a, b, rfl⟩
  have hcm : charMatch ci d t0 = false :=
    charMatch_sep ci d t0 hd (htgt t0 (List.mem_cons_self t0 tgt2)).1
      (htgt t0 (List.mem_cons_self t0 tgt2)).2
  rw [replaceWordAll_head_step _ rep ci t0 tgt2 rfl d hcm p ds,
    isTokChar_false_isWordChar d hd]

theorem replaceWordAll_ne_nil (tgt rep : List Char) (ci : Bool) (hrep : rep ≠ [])
    (p : Bool) (l : List Char) (hl : l ≠ []) : replaceWordAll tgt rep ci p l ≠ [] := by
  cases l with
  | nil => exact absurd rfl hl
  | cons c cs =>
    simp only [replaceWordAll]
    split
    · exact fun h => hrep (List.append_eq_nil.1 h).1
    · exact List.cons_ne_nil c _

theorem replaceWordAll_chars (tgt rep : List Char) (ci : Bool) :
    ∀ (n : ℕ) (l : List Char), l.length ≤ n → ∀ (p : Bool) (c : Char),
      c ∈ replaceWordAll tgt rep ci p l → c ∈ rep ∨ c ∈ l := by
  intro n
  induction n with
  | zero =>
    intro l hl p c hc
    rw [Nat.le_zero, List.length_eq_zero] at hl
    subst hl
    rw [replaceWordAll_nil] at hc
    simp at hc
  | succ n ih =>
    intro l hl p c hc
    cases l with
    | nil =>
      rw [replaceWordAll_nil] at hc
      simp at hc
    | cons a l2 =>
      rw [List.length_cons, Nat.succ_le_succ_iff] at hl
      simp only [replaceWordAll] at hc
      split at hc
      · rcases List.mem_append.1 hc with h | h
        · exact Or.inl h
        · have hlen : (l2.drop (tgt.length - 1)).length ≤ n := by
            rw [List.length_drop]
            omega
          rcases ih _ hlen true c h with h2 | h2
          · exact Or.inl h2
          · exact Or.inr (List.mem_cons_of_mem a (mem_drop_mem _ l2 c h2))
      · rcases List.mem_cons.1 hc with h | h
        · exact Or.inr (h ▸ List.mem_cons_self a l2)
        · rcases ih l2 hl (isWordChar a) c h with h2 | h2
          · exact Or.inl h2
          · exact Or.inr (List.mem_cons_of_mem a h2)

theorem replaceWordAll_split (tgt rep : List Char) (ci : Bool)
    (htgt : ∀ b ∈ tgt, isWordChar b = true ∧ isWordChar (upperChar b) = true)
    (hne : tgt ≠ []) :
    ∀ (n : ℕ) (r : List Char), r.length ≤ n → ∀ (rest : List Char) (prev : Bool),
      (∀ c ∈ r, isTokChar c = true) →
      (∀ d, rest.head? = some d → isTokChar d = false) →
      replaceWordAll tgt rep ci prev (r ++ rest) =
        replaceWordAll tgt rep ci prev r ++ replaceWordAll tgt rep ci false rest := by
  intro n
  induction n with
  | zero =>
    intro r hr rest prev hall hhead
    rw [Nat.le_zero, List.length_eq_zero] at hr
    subst hr
    rw [List.nil_append, replaceWordAll_nil, List.nil_append]
    cases rest with
    | nil => rw [replaceWordAll_nil, replaceWordAll_nil]
    | cons d ds =>
      rw [replaceWordAll_sep_step tgt rep ci htgt hne d (hhead d rfl) prev ds,
        replaceWordAll_sep_step tgt rep ci htgt hne d (hhead d rfl) false ds]
  | succ n ih =>
    intro r hr rest prev hall hhead
    cases r with
    | nil =>
      rw [List.nil_append, replaceWordAll_nil, List.nil_append]
      cases rest with
      | nil => rw [replaceWordAll_nil, replaceWordAll_nil]
      | cons d ds =>
        rw [replaceWordAll_sep_step tgt rep ci htgt hne d (hhead d rfl) prev ds,
          replaceWordAll_sep_step tgt rep ci htgt hne d (hhead d rfl) false ds]
    | cons c r2 =>
      rw [List.length_cons, Nat.succ_le_succ_iff] at hr
      have hall2 : ∀ x ∈ r2, isTokChar x = true :=
        fun x hx => hall x (List.mem_cons_of_mem _ hx)
      have hm : matchesAt tgt ci (c :: (r2 ++ rest)) = matchesAt tgt ci (c :: r2) := by
        have := matchesAt_append tgt ci htgt (c :: r2) rest hhead
        rw [List.cons_append] at this
        exact this
      have hcond_eq : (!prev && matchesAt tgt ci (c :: (r2 ++ rest)) &&
            boundaryAfter tgt (c :: (r2 ++ rest))) =
          (!prev && matchesAt tgt ci (c :: r2) && boundaryAfter tgt (c :: r2)) := by
        by_cases hmA : matchesAt tgt ci (c :: r2) = true
        · have hb := boundaryAfter_append tgt (c :: r2) rest (matchesAt_length hmA) hhead
          rw [List.cons_append] at hb
          rw [hm, hb]
        · have hmA2 : matchesAt tgt ci (c :: r2) = false := Bool.eq_false_iff.2 hmA
          rw [hm, hmA2]
          simp
      by_cases hcnd : (!prev && matchesAt tgt ci (c :: r2) &&
          boundaryAfter tgt (c :: r2)) = true
      · have hmA : matchesAt tgt ci (c :: r2) = true := by
          have h1 := hcnd
          simp only [Bool.and_eq_true] at h1
          exact h1.1.2
        have hlen : tgt.length - 1 ≤ r2.length := by
          have := matchesAt_length hmA
          simp only [List.length_cons] at this
          omega
        have hdrop : (r2 ++ rest).drop (tgt.length - 1) =
            r2.drop (tgt.length - 1) ++ rest := drop_append_le _ r2 rest hlen
        have hih := ih (r2.drop (tgt.length - 1))
          (by rw [List.length_drop]; omega) rest true
          (fun x hx => hall2 x (mem_drop_mem _ r2 x hx)) hhead
        have hL : replaceWordAll tgt rep ci prev (c :: (r2 ++ rest)) =
            rep ++ replaceWordAll tgt rep ci true ((r2 ++ rest).drop (tgt.length - 1)) := by
          simp only [replaceWordAll]
          rw [if_pos (hcond_eq.trans hcnd)]
        have hR : replaceWordAll tgt rep ci prev (c :: r2) =
            rep ++ replaceWordAll tgt rep ci true (r2.drop (tgt.length - 1)) := by
          simp only [replaceWordAll]
          rw [if_pos hcnd]
        rw [List.cons_append, hL, hR, hdrop, hih, List.append_assoc]
      · have hL : replaceWordAll tgt rep ci prev (c :: (r2 ++ rest)) =
            c :: replaceWordAll tgt rep ci (isWordChar c) (r2 ++ rest) := by
          simp only [replaceWordAll]
          rw [if_neg (fun h => hcnd (hcond_eq.symm.trans h))]
        have hR : replaceWordAll tgt rep ci prev (c :: r2) =
            c :: replaceWordAll tgt rep ci (isWordChar c) r2 := by
          simp only [replaceWordAll]
          rw [if_neg hcnd]
        rw [List.cons_append, hL, hR,
          ih r2 hr rest (isWordChar c) hall2 hhead, List.cons_append]

theorem flattenChunks_head_nonTok : ∀ ch : List Chunk, wfChunks ch = true →
    headSepChunk ch = true → ∀ d, (flattenChunks ch).head? = some d → isTokChar d = false := by
  intro ch hwf hsep d hd
  cases ch with
  | nil => simp [flattenChunks] at hd
  | cons k ch2 =>
    cases k with
    | run r => simp [headSepChunk] at hsep
    | sep c =>
      simp only [wfChunks, Bool.and_eq_true, Bool.not_eq_true'] at hwf
      simp only [flattenChunks, List.flatMap_cons, List.singleton_append,
        List.head?_cons, Option.some.injEq] at hd
      rw [← hd]
      exact hwf.1

theorem replaceWordAll_flatten (tgt rep : List Char) (ci : Bool)
    (htgt : ∀ b ∈ tgt, isWordChar b = true ∧ isWordChar (upperChar b) = true)
    (hne : tgt ≠ []) :
    ∀ ch : List Chunk, wfChunks ch = true →
      replaceWordAll tgt rep ci false (flattenChunks ch) =
        flattenChunks (ch.map (passChunk tgt rep ci)) := by
  intro ch
  induction ch with
  | nil => intro; rw [flattenChunks, flattenChunks]; simp [replaceWordAll_nil]
  | cons k ch2 ih =>
    intro hwf
    cases k with
    | sep c =>
      simp only [wfChunks, Bool.and_eq_true, Bool.not_eq_true'] at hwf
      show replaceWordAll tgt rep ci false (flattenChunks (Chunk.sep c :: ch2)) = _
      rw [show flattenChunks (Chunk.sep c :: ch2) = c :: flattenChunks ch2 from by
        simp [flattenChunks]]
      rw [replaceWordAll_sep_step tgt rep ci htgt hne c hwf.1 false _, ih hwf.2]
      simp [passChunk, flattenChunks]
    | run r =>
      simp only [wfChunks, Bool.and_eq_true, Bool.not_eq_true', List.all_eq_true] at hwf
      obtain ⟨⟨⟨hne2, hall⟩, hsep⟩, hwf2⟩ := hwf
      have hhead : ∀ d, (flattenChunks ch2).head? = some d → isTokChar d = false := by
        intro d hd
        exact flattenChunks_head_nonTok ch2 hwf2 hsep d hd
      show replaceWordAll tgt rep ci false (flattenChunks (Chunk.run r :: ch2)) = _
      rw [show flattenChunks (Chunk.run r :: ch2) = r ++ flattenChunks ch2 from by
        simp [flattenChunks]]
      rw [replaceWordAll_split tgt rep ci htgt hne r.length r (le_refl _)
        (flattenChunks ch2) false hall hhead, ih hwf2]
      simp [passChunk, passRun, flattenChunks]

theorem headSepChunk_map (f : Chunk → Chunk)
    (hf : ∀ r, ∃ r2, f (Chunk.run r) = Chunk.run r2)
    (hg : ∀ c, ∃ c2, f (Chunk.sep c) = Chunk.sep c2) :
    ∀ ch : List Chunk, headSepChunk ch = true → headSepChunk (ch.map f) = true := by
  intro ch hsep
  cases ch with
  | nil => rfl
  | cons k ch2 =>
    cases k with
    | run r => simp [headSepChunk] at hsep
    | sep c =>
      obtain ⟨c2, hc2⟩ := hg c
      simp [headSepChunk, hc2]

theorem wfChunks_map_passChunk (tgt rep : List Char) (ci : Bool) (hrep : rep ≠ [])
    (hrtok : ∀ c ∈ rep, isTokChar c = true) :
    ∀ ch : List Chunk, wfChunks ch = true →
      wfChunks (ch.map (passChunk tgt rep ci)) = true := by
  intro ch
  induction ch with
  | nil => intro; rfl
  | cons k ch2 ih =>
    intro hwf
    cases k with
    | sep c =>
      simp only [wfChunks, Bool.and_eq_true, Bool.not_eq_true'] at hwf
      simp only [List.map_cons, passChunk, wfChunks, Bool.and_eq_true, Bool.not_eq_true']
      exact ⟨hwf.1, ih hwf.2⟩
    | run r =>
      simp only [wfChunks, Bool.and_eq_true, Bool.not_eq_true', List.all_eq_true] at hwf
      obtain ⟨⟨⟨hne2, hall⟩, hsep⟩, hwf2⟩ := hwf
      have hrne : r ≠ [] := by
        intro habs
        rw [habs] at hne2
        simp at hne2
      simp only [List.map_cons, passChunk, wfChunks, Bool.and_eq_true, Bool.not_eq_true',
        List.all_eq_true]
      refine ⟨⟨⟨?_, ?_⟩, ?_⟩, ih hwf2⟩
      · have := replaceWordAll_ne_nil tgt rep ci hrep false r hrne
        simp only [passRun]
        cases h : replaceWordAll tgt rep ci false r with
        | nil => exact absurd h this
        | cons a l => simp
      · intro x hx
        rcases replaceWordAll_chars tgt rep ci r.length r (le_refl _) false x hx with h | h
        · exact hrtok x h
        · exact hall x h
      · exact headSepChunk_map _ (fun r => ⟨_, rfl⟩) (fun c => ⟨c, rfl⟩) ch2 hsep

theorem replaceCaret_toks : ∀ r : List Char, (∀ c ∈ r, isTokChar c = true) →
    replaceCaret r = r := by
  intro r h
  induction r with
  | nil => rfl
  | cons c cs ih =>
    have hc : (c == '^') = false := by
      rw [Bool.eq_false_iff]
      intro habs
      have := h c (List.mem_cons_self c cs)
      rw [eq_of_beq habs] at this
      simp [isTokChar, isWordChar] at this
    simp only [replaceCaret, List.flatMap_cons, hc, Bool.false_eq_true, if_false]
    rw [show (cs.flatMap fun c => if c == '^' then ['*', '*'] else [c]) =
      replaceCaret cs from rfl, ih fun x hx => h x (List.mem_cons_of_mem c hx)]
    rfl

theorem replaceCaret_append (a b : List Char) :
    replaceCaret (a ++ b) = replaceCaret a ++ replaceCaret b := by
  simp [replaceCaret]

theorem replaceCaret_flatten : ∀ ch : List Chunk, wfChunks ch = true →
    replaceCaret (flattenChunks ch) = flattenChunks (expandChunks ch) := by
  intro ch
  induction ch with
  | nil => intro; rfl
  | cons k ch2 ih =>
    intro hwf
    cases k with
    | run r =>
      simp only [wfChunks, Bool.and_eq_true, Bool.not_eq_true', List.all_eq_true] at hwf
      obtain ⟨⟨⟨-, hall⟩, -⟩, hwf2⟩ := hwf
      show replaceCaret (flattenChunks (Chunk.run r :: ch2)) = _
      rw [show flattenChunks (Chunk.run r :: ch2) = r ++ flattenChunks ch2 from by
        simp [flattenChunks]]
      rw [replaceCaret_append, replaceCaret_toks r hall, ih hwf2]
      simp [expandChunks, expandChunk, flattenChunks]
    | sep c =>
      simp only [wfChunks, Bool.and_eq_true, Bool.not_eq_true'] at hwf
      show replaceCaret (flattenChunks (Chunk.sep c :: ch2)) = _
      rw [show flattenChunks (Chunk.sep c :: ch2) = [c] ++ flattenChunks ch2 from by
        simp [flattenChunks]]
      rw [replaceCaret_append, ih hwf.2]
      cases hc2 : c == '^' with
      | true =>
        have hcc : c = '^' := eq_of_beq hc2
        subst hcc
        rw [show replaceCaret ['^'] = ['*', '*'] from by decide]
        rw [show expandChunks (Chunk.sep '^' :: ch2) =
          Chunk.sep '*' :: Chunk.sep '*' :: expandChunks ch2 from by
            simp [expandChunks, expandChunk]]
        rw [show flattenChunks (Chunk.sep '*' :: Chunk.sep '*' :: expandChunks ch2) =
          '*' :: '*' :: flattenChunks (expandChunks ch2) from by simp [flattenChunks]]
        rfl
      | false =>
        have hcc : c ≠ '^' := by
          intro habs
          rw [habs] at hc2
          simp at hc2
        rw [show replaceCaret [c] = [c] from by simp [replaceCaret, hc2, hcc]]
        rw [show expandChunks (Chunk.sep c :: ch2) = Chunk.sep c :: expandChunks ch2 from by
          simp [expandChunks, expandChunk, hcc]]
        rw [show flattenChunks (Chunk.sep c :: expandChunks ch2) =
          c :: flattenChunks (expandChunks ch2) from by simp [flattenChunks]]
        rfl

theorem wfChunks_expandChunks : ∀ ch : List Chunk, wfChunks ch = true →
    wfChunks (expandChunks ch) = true := by
  intro ch
  induction ch with
  | nil => intro; rfl
  | cons k ch2 ih =>
    intro hwf
    cases k with
    | run r =>
      simp only [wfChunks, Bool.and_eq_true, Bool.not_eq_true', List.all_eq_true] at hwf
      obtain ⟨⟨⟨hne2, hall⟩, hsep⟩, hwf2⟩ := hwf
      show wfChunks (expandChunks (Chunk.run r :: ch2)) = true
      rw [show expandChunks (Chunk.run r :: ch2) = Chunk.run r :: expandChunks ch2 from by
        simp [expandChunks, expandChunk]]
      simp only [wfChunks, Bool.and_eq_true, Bool.not_eq_true', List.all_eq_true]
      refine ⟨⟨⟨hne2, hall⟩, ?_⟩, ih hwf2⟩
      cases ch2 with
      | nil => rfl
      | cons k2 ch3 =>
        cases k2 with
        | run r2 => simp [headSepChunk] at hsep
        | sep c2 =>
          rw [show expandChunks (Chunk.sep c2 :: ch3) =
            expandChunk (Chunk.sep c2) ++ expandChunks ch3 from by
              simp [expandChunks]]
          rw [expandChunk]
          cases hc : c2 == '^' <;> simp [hc, headSepChunk]
    | sep c =>
      simp only [wfChunks, Bool.and_eq_true, Bool.not_eq_true'] at hwf
      show wfChunks (expandChunks (Chunk.sep c :: ch2)) = true
      rw [show expandChunks (Chunk.sep c :: ch2) =
        expandChunk (Chunk.sep c) ++ expandChunks ch2 from by simp [expandChunks]]
      rw [expandChunk]
      have hstar : isTokChar '*' = false := by decide
      cases hc : c == '^' with
      | true => simp [hc, wfChunks, hstar, ih hwf.2]
      | false => simp [hc, wfChunks, hwf.1, ih hwf.2]

theorem run_mem_expandChunks (r : List Char) :
    ∀ ch : List Chunk, Chunk.run r ∈ expandChunks ch → Chunk.run r ∈ ch := by
  intro ch hmem
  rw [expandChunks, List.mem_flatMap] at hmem
  obtain ⟨k, hk, hrk⟩ := hmem
  cases k with
  | run r2 =>
    simp only [expandChunk, List.mem_singleton] at hrk
    rw [hrk]
    exact hk
  | sep c =>
    rw [expandChunk] at hrk
    by_cases hc : (c == '^') = true
    · rw [if_pos hc] at hrk
      simp at hrk
    · rw [if_neg hc] at hrk
      simp at hrk

theorem foldl_replaceWordAll_flatten :
    ∀ fns : List String,
      (∀ fn ∈ fns, (∀ b ∈ fn.data, isWordChar b = true ∧ isWordChar (upperChar b) = true) ∧
        fn.data ≠ [] ∧ ("Math." ++ fn).data ≠ [] ∧
        (∀ c ∈ ("Math." ++ fn).data, isTokChar c = true)) →
      ∀ ch : List Chunk, wfChunks ch = true →
        fns.foldl (fun acc fn =>
            replaceWordAll fn.data ("Math." ++ fn).data false false acc)
          (flattenChunks ch) =
          flattenChunks (fns.foldl (fun ch fn =>
            ch.map (passChunk fn.data ("Math." ++ fn).data false)) ch) ∧
        wfChunks (fns.foldl (fun ch fn =>
          ch.map (passChunk fn.data ("Math." ++ fn).data false)) ch) = true := by
  intro fns
  induction fns with
  | nil => intro h ch hwf; exact ⟨rfl, hwf⟩
  | cons fn fns ih =>
    intro h ch hwf
    have hfn := h fn (List.mem_cons_self fn fns)
    rw [List.foldl_cons, List.foldl_cons]
    have h1 : replaceWordAll fn.data ("Math." ++ fn).data false false (flattenChunks ch) =
        flattenChunks (ch.map (passChunk fn.data ("Math." ++ fn).data false)) :=
      replaceWordAll_flatten _ _ _ hfn.1 hfn.2.1 ch hwf
    have hwf1 := wfChunks_map_passChunk fn.data ("Math." ++ fn).data false
      hfn.2.2.1 hfn.2.2.2 ch hwf
    rw [h1]
    exact ih (fun g hg => h g (List.mem_cons_of_mem _ hg)) _ hwf1

theorem foldl_map_chunks {γ : Type} (g : γ → Chunk → Chunk) :
    ∀ (l : List γ) (ch : List Chunk),
      l.foldl (fun ch a => ch.map (g a)) ch =
        ch.map fun k => l.foldl (fun k a => g a k) k := by
  intro l
  induction l with
  | nil => intro ch; simp
  | cons a l ih =>
    intro ch
    rw [List.foldl_cons, ih, List.map_map]
    rfl

theorem foldl_passChunk_sep {γ : Type} (t r : γ → List Char) (b : Bool) (l : List γ)
    (c : Char) :
    l.foldl (fun k a => passChunk (t a) (r a) b k) (Chunk.sep c) = Chunk.sep c := by
  induction l with
  | nil => rfl
  | cons a l ih => rw [List.foldl_cons]; exact ih

theorem foldl_passChunk_run {γ : Type} (t r : γ → List Char) (b : Bool) :
    ∀ (l : List γ) (x : List Char),
      l.foldl (fun k a => passChunk (t a) (r a) b k) (Chunk.run x) =
        Chunk.run (l.foldl (fun x a => replaceWordAll (t a) (r a) b false x) x) := by
  intro l
  induction l with
  | nil => intro x; rfl
  | cons a l ih =>
    intro x
    rw [List.foldl_cons, List.foldl_cons]
    exact ih _

theorem charMatch_nonalpha (ci : Bool) (c b : Char) (hc : c.isAlpha = false)
    (hb : b.isAlpha = true) (hub : (upperChar b).isAlpha = true) :
    charMatch ci c b = false := by
  have h1 : (c == b) = false := by
    rw [Bool.eq_false_iff]
    intro habs
    rw [eq_of_beq habs, hb] at hc
    simp at hc
  have h2 : (c == upperChar b) = false := by
    rw [Bool.eq_false_iff]
    intro habs
    rw [eq_of_beq habs, hub] at hc
    simp at hc
  rw [charMatch, h1, h2, Bool.and_false, Bool.or_false]

theorem foldl_replaceWordAll_head {γ : Type} (t r : γ → List Char) (c : Char) :
    ∀ l : List γ,
      (∀ a ∈ l, ∃ t0 tl, t a = t0 :: tl ∧ charMatch false c t0 = false) →
      ∀ x : List Char, ∃ out,
        l.foldl (fun x a => replaceWordAll (t a) (r a) false false x) (c :: x) =
          c :: out := by
  intro l
  induction l with
  | nil => intro h x; exact ⟨x, rfl⟩
  | cons a l ih =>
    intro h x
    obtain ⟨t0, tl, hta, hcm⟩ := h a (List.mem_cons_self a l)
    rw [List.foldl_cons,
      replaceWordAll_head_step (t a) (r a) false t0 tl hta c hcm false x]
    exact ih (fun g hg => h g (List.mem_cons_of_mem _ hg)) _

theorem mathFuncs_heads : ∀ fn ∈ mathFuncs, ∃ t0 tl, fn.data = t0 :: tl ∧
    t0.isAlpha = true ∧ (upperChar t0).isAlpha = true := by
  intro fn hfn
  fin_cases hfn <;> exact ⟨_, _, rfl, by decide, by decide⟩

theorem mathFuncs_tgtOk : ∀ fn ∈ mathFuncs,
    (∀ b ∈ fn.data, isWordChar b = true ∧ isWordChar (upperChar b) = true) ∧
    fn.data ≠ [] ∧ ("Math." ++ fn).data ≠ [] ∧
    (∀ c ∈ ("Math." ++ fn).data, isTokChar c = true) := by
  intro fn hfn
  fin_cases hfn <;> exact ⟨by decide, by decide, by decide, by decide⟩

theorem pipelineRun_head (c : Char) (hc : c.isAlpha = false) :
    ∀ x : List Char, ∃ out, pipelineRun (c :: x) = c :: out := by
  intro x
  have hpi : replaceWordAll "pi".data "Math.PI".data true false (c :: x) =
      c :: replaceWordAll "pi".data "Math.PI".data true (isWordChar c) x :=
    replaceWordAll_head_step _ _ true 'p' ['i'] rfl c
      (charMatch_nonalpha true c 'p' hc (by decide) (by decide)) false x
  rw [pipelineRun, hpi]
  exact foldl_replaceWordAll_head (fun fn => fn.data) (fun fn => ("Math." ++ fn).data) c
    mathFuncs
    (fun a ha => by
      obtain ⟨t0, tl, hta, hb, hub⟩ := mathFuncs_heads a ha
      exact ⟨t0, tl, hta, charMatch_nonalpha false c t0 hc hb hub⟩) _

set_option maxHeartbeats 4000000 in
theorem pipelineRun_allowed : ∀ r : List Char, String.mk r ∈ allowedInputIdents →
    ∀ tok, identOfChunk (Chunk.run (pipelineRun r)) = some tok →
      tok ∈ allowedOutputIdents := by
  intro r hr
  simp only [allowedInputIdents, mathFuncs, List.cons_append, List.nil_append,
    List.mem_cons, List.not_mem_nil, or_false] at hr
  rcases hr with h|h|h|h|h|h|h|h|h|h|h|h|h|h|h|h|h|h|h|h|h|h|h|h|h
  · have hr2 : r = ("u" : String).data := congrArg String.data h
    subst hr2
    intro tok htok
    have hval : pipelineRun ("u" : String).data = ("u" : String).data := by
      simp [pipelineRun, mathFuncs, replaceWordAll, matchesAt, boundaryAfter, charMatch,
        upperChar, isWordChar]
    rw [hval] at htok
    have hident : identOfChunk (Chunk.run ("u" : String).data) = some "u" := by
      decide
    rw [hident] at htok
    cases Option.some.inj htok
    decide
  · have hr2 : r = ("v" : String).data := congrArg String.data h
    subst hr2
    intro tok htok
    have hval : pipelineRun ("v" : String).data = ("v" : String).data := by
      simp [pipelineRun, mathFuncs, replaceWordAll, matchesAt, boundaryAfter, charMatch,
        upperChar, isWordChar]
    rw [hval] at htok
    have hident : identOfChunk (Chunk.run ("v" : String).data) = some "v" := by
      decide
    rw [hident] at htok
    cases Option.some.inj htok
    decide
  · have hr2 : r = ("pi" : String).data := congrArg String.data h
    subst hr2
    intro tok htok
    have hval : pipelineRun ("pi" : String).data = ("Math.PI" : String).data := by
      simp [pipelineRun, mathFuncs, replaceWordAll, matchesAt, boundaryAfter, charMatch,
        upperChar, isWordChar]
    rw [hval] at htok
    have hident : identOfChunk (Chunk.run ("Math.PI" : String).data) = some "Math.PI" := by
      decide
    rw [hident] at htok
    cases Option.some.inj htok
    decide
  · have hr2 : r = ("pI" : String).data := congrArg String.data h
    subst hr2
    intro tok htok
    have hval : pipelineRun ("pI" : String).data = ("Math.PI" : String).data := by
      simp [pipelineRun, mathFuncs, replaceWordAll, matchesAt, boundaryAfter, charMatch,
        upperChar, isWordChar]
    rw [hval] at htok
    have hident : identOfChunk (Chunk.run ("Math.PI" : String).data) = some "Math.PI" := by
      decide
    rw [hident] at htok
    cases Option.some.inj htok
    decide
  · have hr2 : r = ("Pi" : String).data := congrArg String.data h
    subst hr2
    intro tok htok
    have hval : pipelineRun ("Pi" : String).data = ("Math.PI" : String).data := by
      simp [pipelineRun, mathFuncs, replaceWordAll, matchesAt, boundaryAfter, charMatch,
        upperChar, isWordChar]
    rw [hval] at htok
    have hident : identOfChunk (Chunk.run ("Math.PI" : String).data) = some "Math.PI" := by
      decide
    rw [hident] at htok
    cases Option.some.inj htok
    decide
  · have hr2 : r = ("PI" : String).data := congrArg String.data h
    subst hr2
    intro tok htok
    have hval : pipelineRun ("PI" : String).data = ("Math.PI" : String).data := by
      simp [pipelineRun, mathFuncs, replaceWordAll, matchesAt, boundaryAfter, charMatch,
        upperChar, isWordChar]
    rw [hval] at htok
    have hident : identOfChunk (Chunk.run ("Math.PI" : String).data) = some "Math.PI" := by
      decide
    rw [hident] at htok
    cases Option.some.inj htok
    decide
  · have hr2 : r = ("sin" : String).data := congrArg String.data h
    subst hr2
    intro tok htok
    have hval : pipelineRun ("sin" : String).data = ("Math.sin" : String).data := by
      simp [pipelineRun, mathFuncs, replaceWordAll, matchesAt, boundaryAfter, charMatch,
        upperChar, isWordChar]
    rw [hval] at htok
    have hident : identOfChunk (Chunk.run ("Math.sin" : String).data) = some "Math.sin" := by
      decide
    rw [hident] at htok
    cases Option.some.inj htok
    decide
  · have hr2 : r = ("cos" : String).data := congrArg String.data h
    subst hr2
    intro tok htok
    have hval : pipelineRun ("cos" : String).data = ("Math.cos" : String).data := by
      simp [pipelineRun, mathFuncs, replaceWordAll, matchesAt, boundaryAfter, charMatch,
        upperChar, isWordChar]
    rw [hval] at htok
    have hident : identOfChunk (Chunk.run ("Math.cos" : String).data) = some "Math.cos" := by
      decide
    rw [hident] at htok
    cases Option.some.inj htok
    decide
  · have hr2 : r = ("tan" : String).data := congrArg String.data h
    subst hr2
    intro tok htok
    have hval : pipelineRun ("tan" : String).data = ("Math.tan" : String).data := by
      simp [pipelineRun, mathFuncs, replaceWordAll, matchesAt, boundaryAfter, charMatch,
        upperChar, isWordChar]
    rw [hval] at htok
    have hident : identOfChunk (Chunk.run ("Math.tan" : String).data) = some "Math.tan" := by
      decide
    rw [hident] at htok
    cases Option.some.inj htok
    decide
  · have hr2 : r = ("asin" : String).data := congrArg String.data h
    subst hr2
    intro tok htok
    have hval : pipelineRun ("asin" : String).data = ("Math.asin" : String).data := by
      simp [pipelineRun, mathFuncs, replaceWordAll, matchesAt, boundaryAfter, charMatch,
        upperChar, isWordChar]
    rw [hval] at htok
    have hident : identOfChunk (Chunk.run ("Math.asin" : String).data) = some "Math.asin" := by
      decide
    rw [hident] at htok
    cases Option.some.inj htok
    decide
  · have hr2 : r = ("acos" : String).data := congrArg String.data h
    subst hr2
    intro tok htok
    have hval : pipelineRun ("acos" : String).data = ("Math.acos" : String).data := by
      simp [pipelineRun, mathFuncs, replaceWordAll, matchesAt, boundaryAfter, charMatch,
        upperChar, isWordChar]
    rw [hval] at htok
    have hident : identOfChunk (Chunk.run ("Math.acos" : String).data) = some "Math.acos" := by
      decide
    rw [hident] at htok
    cases Option.some.inj htok
    decide
  · have hr2 : r = ("atan" : String).data := congrArg String.data h
    subst hr2
    intro tok htok
    have hval : pipelineRun ("atan" : String).data = ("Math.atan" : String).data := by
      simp [pipelineRun, mathFuncs, replaceWordAll, matchesAt, boundaryAfter, charMatch,
        upperChar, isWordChar]
    rw [hval] at htok
    have hident : identOfChunk (Chunk.run ("Math.atan" : String).data) = some "Math.atan" := by
      decide
    rw [hident] at htok
    cases Option.some.inj htok
    decide
  · have hr2 : r = ("sinh" : String).data := congrArg String.data h
    subst hr2
    intro tok htok
    have hval : pipelineRun ("sinh" : String).data = ("Math.sinh" : String).data := by
      simp [pipelineRun, mathFuncs, replaceWordAll, matchesAt, boundaryAfter, charMatch,
        upperChar, isWordChar]
    rw [hval] at htok
    have hident : identOfChunk (Chunk.run ("Math.sinh" : String).data) = some "Math.sinh" := by
      decide
    rw [hident] at htok
    cases Option.some.inj htok
    decide
  · have hr2 : r = ("cosh" : String).data := congrArg String.data h
    subst hr2
    intro tok htok
    have hval : pipelineRun ("cosh" : String).data = ("Math.cosh" : String).data := by
      simp [pipelineRun, mathFuncs, replaceWordAll, matchesAt, boundaryAfter, charMatch,
        upperChar, isWordChar]
    rw [hval] at htok
    have hident : identOfChunk (Chunk.run ("Math.cosh" : String).data) = some "Math.cosh" := by
      decide
    rw [hident] at htok
    cases Option.some.inj htok
    decide
  · have hr2 : r = ("tanh" : String).data := congrArg String.data h
    subst hr2
    intro tok htok
    have hval : pipelineRun ("tanh" : String).data = ("Math.tanh" : String).data := by
      simp [pipelineRun, mathFuncs, replaceWordAll, matchesAt, boundaryAfter, charMatch,
        upperChar, isWordChar]
    rw [hval] at htok
    have hident : identOfChunk (Chunk.run ("Math.tanh" : String).data) = some "Math.tanh" := by
      decide
    rw [hident] at htok
    cases Option.some.inj htok
    decide
  · have hr2 : r = ("exp" : String).data := congrArg String.data h
    subst hr2
    intro tok htok
    have hval : pipelineRun ("exp" : String).data = ("Math.exp" : String).data := by
      simp [pipelineRun, mathFuncs, replaceWordAll, matchesAt, boundaryAfter, charMatch,
        upperChar, isWordChar]
    rw [hval] at htok
    have hident : identOfChunk (Chunk.run ("Math.exp" : String).data) = some "Math.exp" := by
      decide
    rw [hident] at htok
    cases Option.some.inj htok
    decide
  · have hr2 : r = ("log" : String).data := congrArg String.data h
    subst hr2
    intro tok htok
    have hval : pipelineRun ("log" : String).data = ("Math.log" : String).data := by
      simp [pipelineRun, mathFuncs, replaceWordAll, matchesAt, boundaryAfter, charMatch,
        upperChar, isWordChar]
    rw [hval] at htok
    have hident : identOfChunk (Chunk.run ("Math.log" : String).data) = some "Math.log" := by
      decide
    rw [hident] at htok
    cases Option.some.inj htok
    decide
  · have hr2 : r = ("sqrt" : String).data := congrArg String.data h
    subst hr2
    intro tok htok
    have hval : pipelineRun ("sqrt" : String).data = ("Math.sqrt" : String).data := by
      simp [pipelineRun, mathFuncs, replaceWordAll, matchesAt, boundaryAfter, charMatch,
        upperChar, isWordChar]
    rw [hval] at htok
    have hident : identOfChunk (Chunk.run ("Math.sqrt" : String).data) = some "Math.sqrt" := by
      decide
    rw [hident] at htok
    cases Option.some.inj htok
    decide
  · have hr2 : r = ("abs" : String).data := congrArg String.data h
    subst hr2
    intro tok htok
    have hval : pipelineRun ("abs" : String).data = ("Math.abs" : String).data := by
      simp [pipelineRun, mathFuncs, replaceWordAll, matchesAt, boundaryAfter, charMatch,
        upperChar, isWordChar]
    rw [hval] at htok
    have hident : identOfChunk (Chunk.run ("Math.abs" : String).data) = some "Math.abs" := by
      decide
    rw [hident] at htok
    cases Option.some.inj htok
    decide
  · have hr2 : r = ("floor" : String).data := congrArg String.data h
    subst hr2
    intro tok htok
    have hval : pipelineRun ("floor" : String).data = ("Math.floor" : String).data := by
      simp [pipelineRun, mathFuncs, replaceWordAll, matchesAt, boundaryAfter, charMatch,
        upperChar, isWordChar]
    rw [hval] at htok
    have hident : identOfChunk (Chunk.run ("Math.floor" : String).data) = some "Math.floor" := by
      decide
    rw [hident] at htok
    cases Option.some.inj htok
    decide
  · have hr2 : r = ("ceil" : String).data := congrArg String.data h
    subst hr2
    intro tok htok
    have hval : pipelineRun ("ceil" : String).data = ("Math.ceil" : String).data := by
      simp [pipelineRun, mathFuncs, replaceWordAll, matchesAt, boundaryAfter, charMatch,
        upperChar, isWordChar]
    rw [hval] at htok
    have hident : identOfChunk (Chunk.run ("Math.ceil" : String).data) = some "Math.ceil" := by
      decide
    rw [hident] at htok
    cases Option.some.inj htok
    decide
  · have hr2 : r = ("round" : String).data := congrArg String.data h
    subst hr2
    intro tok htok
    have hval : pipelineRun ("round" : String).data = ("Math.round" : String).data := by
      simp [pipelineRun, mathFuncs, replaceWordAll, matchesAt, boundaryAfter, charMatch,
        upperChar, isWordChar]
    rw [hval] at htok
    have hident : identOfChunk (Chunk.run ("Math.round" : String).data) = some "Math.round" := by
      decide
    rw [hident] at htok
    cases Option.some.inj htok
    decide
  · have hr2 : r = ("pow" : String).data := congrArg String.data h
    subst hr2
    intro tok htok
    have hval : pipelineRun ("pow" : String).data = ("Math.pow" : String).data := by
      simp [pipelineRun, mathFuncs, replaceWordAll, matchesAt, boundaryAfter, charMatch,
        upperChar, isWordChar]
    rw [hval] at htok
    have hident : identOfChunk (Chunk.run ("Math.pow" : String).data) = some "Math.pow" := by
      decide
    rw [hident] at htok
    cases Option.some.inj htok
    decide
  · have hr2 : r = ("min" : String).data := congrArg String.data h
    subst hr2
    intro tok htok
    have hval : pipelineRun ("min" : String).data = ("Math.min" : String).data := by
      simp [pipelineRun, mathFuncs, replaceWordAll, matchesAt, boundaryAfter, charMatch,
        upperChar, isWordChar]
    rw [hval] at htok
    have hident : identOfChunk (Chunk.run ("Math.min" : String).data) = some "Math.min" := by
      decide
    rw [hident] at htok
    cases Option.some.inj htok
    decide
  · have hr2 : r = ("max" : String).data := congrArg String.data h
    subst hr2
    intro tok htok
    have hval : pipelineRun ("max" : String).data = ("Math.max" : String).data := by
      simp [pipelineRun, mathFuncs, replaceWordAll, matchesAt, boundaryAfter, charMatch,
        upperChar, isWordChar]
    rw [hval] at htok
    have hident : identOfChunk (Chunk.run ("Math.max" : String).data) = some "Math.max" := by
      decide
    rw [hident] at htok
    cases Option.some.inj htok
    decide

theorem rewriteExpression_pipeline (s : String) :
    rewriteExpression s =
      String.mk (mathFuncs.foldl
        (fun acc fn => replaceWordAll fn.data ("Math." ++ fn).data false false acc)
        (replaceWordAll "pi".data "Math.PI".data true false (replaceCaret s.data))) := rfl

theorem identTokens_flatten (ch : List Chunk) (hwf : wfChunks ch = true) :
    identTokens (String.mk (flattenChunks ch)) = ch.filterMap identOfChunk := by
  simp only [identTokens]
  rw [chunksOf_flattenChunks ch hwf]

theorem wfChunks_run_mem : ∀ ch : List Chunk, wfChunks ch = true →
    ∀ r, Chunk.run r ∈ ch → r ≠ [] ∧ ∀ c ∈ r, isTokChar c = true := by
  intro ch
  induction ch with
  | nil => intro _ r hr; simp at hr
  | cons k ch2 ih =>
    intro hwf r hr
    cases k with
    | sep c =>
      simp only [wfChunks, Bool.and_eq_true, Bool.not_eq_true'] at hwf
      rcases List.mem_cons.1 hr with habs | hmem
      · exact absurd habs (by simp)
      · exact ih hwf.2 r hmem
    | run r2 =>
      simp only [wfChunks, Bool.and_eq_true, Bool.not_eq_true', List.all_eq_true] at hwf
      obtain ⟨⟨⟨hne2, hall⟩, -⟩, hwf2⟩ := hwf
      rcases List.mem_cons.1 hr with heq | hmem
      · have hrr : r = r2 := by
          injection heq
        subst hrr
        refine ⟨?_, hall⟩
        intro habs
        rw [habs] at hne2
        simp at hne2
      · exact ih hwf2 r hmem

/-- C5 (amended): the counterexample `expression_whitelist_cex` shows the
compiler itself enforces no whitelist — a body naming the ambient `alert`
passes preprocessing untouched and compiles in a browser scope. What the
preprocessing does guarantee is identifier confinement for whitelisted input:
if every identifier-like token of the trimmed source text is one of `u`, `v`,
`pi` (in any of its `\b`-matchable spellings) or a whitelisted function name,
then every identifier-like token of the rewritten text is `u`, `v`, `Math.PI`
or a `Math.`-namespaced whitelisted function. -/
theorem expression_ident_confinement (exprRaw : String)
    (h : ∀ tok ∈ identTokens (jsTrim exprRaw), tok ∈ allowedInputIdents) :
    ∀ tok ∈ identTokens (rewriteExpression (jsTrim exprRaw)), tok ∈ allowedOutputIdents := by
  intro tok htok
  have hpi1 : ∀ b ∈ ("pi" : String).data,
      isWordChar b = true ∧ isWordChar (upperChar b) = true := by decide
  have hpi2 : ("pi" : String).data ≠ [] := by decide
  have hpi3 : ("Math.PI" : String).data ≠ [] := by decide
  have hpi4 : ∀ c ∈ ("Math.PI" : String).data, isTokChar c = true := by decide
  have hwf0 := wfChunks_chunksOf (jsTrim exprRaw).data
  have hwf1 := wfChunks_expandChunks _ hwf0
  have hwf2 := wfChunks_map_passChunk ("pi" : String).data ("Math.PI" : String).data true
    hpi3 hpi4 _ hwf1
  obtain ⟨hfold, hwf3⟩ := foldl_replaceWordAll_flatten mathFuncs mathFuncs_tgtOk
    (List.map (passChunk ("pi" : String).data ("Math.PI" : String).data true)
      (expandChunks (chunksOf (jsTrim exprRaw).data))) hwf2
  rw [rewriteExpression_pipeline] at htok
  have hcar : replaceCaret (jsTrim exprRaw).data =
      flattenChunks (expandChunks (chunksOf (jsTrim exprRaw).data)) := by
    have h1 := replaceCaret_flatten (chunksOf (jsTrim exprRaw).data) hwf0
    rw [flattenChunks_chunksOf] at h1
    exact h1
  rw [hcar, replaceWordAll_flatten ("pi" : String).data ("Math.PI" : String).data true
    hpi1 hpi2 _ hwf1, hfold, identTokens_flatten _ hwf3,
    foldl_map_chunks (fun fn => passChunk fn.data ("Math." ++ fn).data false),
    List.map_map] at htok
  obtain ⟨k, hkmem, hkeq⟩ := List.mem_filterMap.1 htok
  obtain ⟨k0, hk0mem, hk0eq⟩ := List.mem_map.1 hkmem
  cases k0 with
  | sep c =>
    have hk : k = Chunk.sep c := by
      rw [← hk0eq]
      exact foldl_passChunk_sep (fun fn => fn.data) (fun fn => ("Math." ++ fn).data)
        false mathFuncs c
    subst hk
    simp [identOfChunk] at hkeq
  | run r =>
    have hk : k = Chunk.run (pipelineRun r) := by
      rw [← hk0eq]
      exact foldl_passChunk_run (fun fn => fn.data) (fun fn => ("Math." ++ fn).data) false
        mathFuncs (passRun ("pi" : String).data ("Math.PI" : String).data true r)
    subst hk
    have hrch0 := run_mem_expandChunks r _ hk0mem
    obtain ⟨hrne, hrtok⟩ := wfChunks_run_mem _ hwf0 r hrch0
    cases r with
    | nil => exact absurd rfl hrne
    | cons c r2 =>
      by_cases hstart : isIdentStart c = true
      · have htin : String.mk (c :: r2) ∈ identTokens (jsTrim exprRaw) := by
          simp only [identTokens]
          exact List.mem_filterMap.2 ⟨Chunk.run (c :: r2), hrch0, by
            simp [identOfChunk, hstart]⟩
        exact pipelineRun_allowed (c :: r2) (h _ htin) tok hkeq
      · have hstart2 : isIdentStart c = false := Bool.eq_false_iff.2 hstart
        have halpha : c.isAlpha = false := by
          simp only [isIdentStart, Bool.or_eq_false_iff] at hstart2
          exact hstart2.1.1
        obtain ⟨out, hout⟩ := pipelineRun_head c halpha r2
        rw [hout] at hkeq
        simp [identOfChunk, hstart2] at hkeq

theorem expression_ident_confinement_witness :
    (∀ tok ∈ identTokens (jsTrim "cos(u) + pi*v"), tok ∈ allowedInputIdents) ∧
    (∀ tok ∈ identTokens (rewriteExpression (jsTrim "cos(u) + pi*v")),
      tok ∈ allowedOutputIdents) :=
  ⟨by decide, expression_ident_confinement "cos(u) + pi*v" (by decide)⟩

/-- C5 counterexample: the body `alert(u)` names the ambient browser function
`alert`, which is neither a parameter nor whitelisted; the preprocessing
leaves it untouched and the compiler accepts it in a browser scope (the host
engine is modelled from the spec), so the compiled function reaches ambient
state outside the whitelist. -/
theorem expression_whitelist_cex :
    (∃ f, compileExpression "alert(u)" (browserEngine (α := ℚ)) = .ok f) ∧
    "alert" ∈ identTokens (rewriteExpression (jsTrim "alert(u)")) ∧
    "alert" ∉ allowedOutputIdents ∧ "alert" ∉ (["u", "v"] : List String) := by
  have htrim : jsTrim "alert(u)" = "alert(u)" := by decide
  have hrw : rewriteExpression "alert(u)" = "alert(u)" := by
    simp [rewriteExpression, mathFuncs, replaceCaret, replaceWordAll,
      matchesAt, boundaryAfter, charMatch, upperChar, isWordChar]
  refine ⟨⟨browserAlertFn, ?_⟩, ?_, by decide, by decide⟩
  · simp only [compileExpression, htrim, hrw]
    simp [browserEngine, browserAlertFn]
  · rw [htrim, hrw]
    decide
